import Mathlib

/-! Razterizacion: a wireframe rasteriser.

A shallow embedding of `razterizacion.cpp` and the properties of its
rendering pipeline.

Reading conventions of the embedding:

* `int` is `Int`: signed overflow is undefined in C++, and the model covers the
  executions without it.
* `float` is `ℚ`, in two readings. In the exact reading (`Interpolate`,
  `DrawLineWrites`, `ViewportToCanvas`, `ProjectVertex`) no operation rounds; it is
  the reading of the statements that say "arithmetic read as exact". In the
  rounding reading (`InterpolateFl`, `DrawLineWritesFl`, `ViewportToCanvasFl`,
  `ProjectVertexFl`) the result of every `float` operation and of every conversion
  from `int` to `float` goes through a rounding function `fl`; `fl32` is the
  rounding of binary32, and `fl = id` gives back the exact reading.
  Infinities and NaN are not represented; the only place the program can produce
  one is the perspective division at depth zero, where Lean's `/` yields `0`, and
  the statement of the value `ProjectVertex` returns carries the hypothesis that
  the depth is non-zero.
* `unsigned char` is `Fin 256`.
* the global array `canvas` is passed explicitly, as a function from its
  `Cw * Ch` cells to colours.
* an unchecked `operator[]` of a `vector` is a fallible read: `none` stands for
  a read outside the vector.
-/

namespace Razterizacion

/-! ## Data model -/

/-- The struct `Color`: three `unsigned char` channels. -/
structure Color where
  r : Fin 256
  g : Fin 256
  b : Fin 256
  deriving DecidableEq, Repr

/-- The struct `Point`: an integer pixel coordinate. -/
structure Point where
  x : Int
  y : Int
  deriving DecidableEq, Repr

/-- The struct `Vertex`: a point of space, its `float` fields read as rationals. -/
structure Vertex where
  x : ℚ
  y : ℚ
  z : ℚ
  deriving DecidableEq, Repr

/-- The struct `Triangle`: `v0`, `v1`, `v2` are `v[0]`, `v[1]`, `v[2]`. -/
structure Triangle where
  v0 : Int
  v1 : Int
  v2 : Int
  color : Color
  deriving DecidableEq, Repr

/-- Canvas width, `const int Cw = 400`. -/
def Cw : Nat := 400

/-- Canvas height, `const int Ch = 400`. -/
def Ch : Nat := 400

/-- Viewport width, `const float Vw = 2.0f`. -/
def Vw : ℚ := 2

/-- Viewport height, `const float viewportHeight = 2.0f`. -/
def viewportHeight : ℚ := 2

/-- Camera distance, `const float d = 1.0f`. -/
def d : ℚ := 1

/-- The translation vector `const Vertex T(-1.5f, 0.0f, 7.0f)`. -/
def T : Vertex := ⟨-3 / 2, 0, 7⟩

/-- The pixel buffer `Color canvas[Cw * Ch]`. -/
abbrev FrameBuffer := Fin (Cw * Ch) → Color

/-- The colour `white` of `Canvas()`. -/
def white : Color := ⟨255, 255, 255⟩

/-- `Canvas()`: every cell becomes white. -/
def Canvas : FrameBuffer := fun _ => white

/-- `PutPixel(x, y, col)`: the store `canvas[y * Cw + x] = col`, guarded by the
bounds test. -/
def PutPixel (x y : Int) (col : Color) (canvas : FrameBuffer) : FrameBuffer :=
  if h : x ≥ 0 ∧ x < (Cw : Int) ∧ y ≥ 0 ∧ y < (Ch : Int) then
    Function.update canvas ⟨(y * (Cw : Int) + x).toNat, by simp only [Cw, Ch] at *; omega⟩ col
  else
    canvas

/-! ## Conversions from `float` to `int` -/

/-- The conversion `int(q)` of a `float`: the fractional part is discarded, so
the value moves toward zero. -/
def ctrunc (q : ℚ) : Int := if 0 ≤ q then ⌊q⌋ else ⌈q⌉

/-- The call `int(round(q))`: `round` of `<cmath>` takes the nearest integer and
sends the halfway cases away from zero. -/
def cround (q : ℚ) : Int := if 0 ≤ q then ⌊q + 1 / 2⌋ else ⌈q - 1 / 2⌉

/-- The unchecked read `v[i]` of a `vector` at an `int` index: `none` when the
index is outside the vector (a negative index converts to a huge `size_t`). -/
def vecAt {α : Type} (v : List α) (i : Int) : Option α :=
  if 0 ≤ i then v[i.toNat]? else none

/-- The integers `a, a+1, ..., b` in ascending order (empty when `b < a`). -/
def intRange (a b : Int) : List Int :=
  (List.range (b + 1 - a).toNat).map fun (k : Nat) => a + (k : Int)

/-! ## Projection -/

/-- `ViewportToCanvas(x, y)`, the arithmetic read as exact. -/
def ViewportToCanvas (x y : ℚ) : Point :=
  let cx := ctrunc ((x + Vw / 2) * ((Cw : ℚ) / Vw))
  let cy := ctrunc ((viewportHeight / 2 - y) * ((Ch : ℚ) / viewportHeight))
  ⟨cx, cy⟩

/-- `ProjectVertex(v)`, the arithmetic read as exact. -/
def ProjectVertex (v : Vertex) : Point :=
  let vt : Vertex := ⟨v.x + T.x, v.y + T.y, v.z + T.z⟩
  let px := vt.x * d / vt.z
  let py := vt.y * d / vt.z
  ViewportToCanvas px py

/-! ## Interpolation and lines -/

/-- The loop of `Interpolate`, with `n` iterations left: each one appends `val`
to `values` and adds `step` to `val`; the sum is read as exact. -/
def interpolateLoop (step : ℚ) : Nat → ℚ → List ℚ → List ℚ
  | 0, _, values => values
  | n + 1, val, values => interpolateLoop step n (val + step) (values ++ [val])

/-- `Interpolate(i0, d0, i1, d1)`, the arithmetic read as exact. The loop
`for (i = i0; i <= i1; i++)` runs `i1 + 1 - i0` times, and not at all when
`i1 < i0`. -/
def Interpolate (i0 : Int) (d0 : ℚ) (i1 : Int) (d1 : ℚ) : List ℚ :=
  if i0 = i1 then
    [d0]
  else
    let step := (d1 - d0) / ((i1 - i0 : Int) : ℚ)
    interpolateLoop step (i1 + 1 - i0).toNat d0 []

/-- The x-major loop of `DrawLine`, `for (x = ...; x <= x1; x++)` with `n`
iterations left: the arguments `(x, int(round(ys[x - x0])))` of its `PutPixel`
calls, in order; `none` if a read of `ys` falls outside the vector. -/
def lineLoopX (ys : List ℚ) (x0 : Int) : Nat → Int → Option (List Point)
  | 0, _ => some []
  | n + 1, x =>
    match vecAt ys (x - x0) with
    | none => none
    | some v => (lineLoopX ys x0 n (x + 1)).map fun rest => ⟨x, cround v⟩ :: rest

/-- The y-major loop of `DrawLine`, `for (y = ...; y <= y1; y++)` with `n`
iterations left: the arguments `(int(round(xs[y - y0])), y)` of its `PutPixel`
calls, in order; `none` if a read of `xs` falls outside the vector. -/
def lineLoopY (xs : List ℚ) (y0 : Int) : Nat → Int → Option (List Point)
  | 0, _ => some []
  | n + 1, y =>
    match vecAt xs (y - y0) with
    | none => none
    | some v => (lineLoopY xs y0 n (y + 1)).map fun rest => ⟨cround v, y⟩ :: rest

/-- The first branch of `DrawLine` after its conditional swap, the arithmetic read
as exact. -/
def drawXMajor (x0 y0 x1 y1 : Int) : Option (List Point) :=
  let ys := Interpolate x0 (y0 : ℚ) x1 (y1 : ℚ)
  lineLoopX ys x0 (x1 + 1 - x0).toNat x0

/-- The second branch of `DrawLine` after its conditional swap, the arithmetic read
as exact. -/
def drawYMajor (x0 y0 x1 y1 : Int) : Option (List Point) :=
  let xs := Interpolate y0 (x0 : ℚ) y1 (x1 : ℚ)
  lineLoopY xs y0 (y1 + 1 - y0).toNat y0

/-- The pixel writes `DrawLine(p0, p1, col)` attempts: the coordinates of its
`PutPixel` calls, in order, before the bounds test of `PutPixel`; the arithmetic is
read as exact. -/
def DrawLineWrites (p0 p1 : Point) : Option (List Point) :=
  let x0 := p0.x
  let y0 := p0.y
  let x1 := p1.x
  let y1 := p1.y
  let dx := x1 - x0
  let dy := y1 - y0
  if |dx| > |dy| then
    if x0 > x1 then drawXMajor x1 y1 x0 y0 else drawXMajor x0 y0 x1 y1
  else
    if y0 > y1 then drawYMajor x1 y1 x0 y0 else drawYMajor x0 y0 x1 y1

/-- The effect of a list of `PutPixel` calls of one colour on the buffer. -/
def putPixels (col : Color) (ws : List Point) (canvas : FrameBuffer) : FrameBuffer :=
  ws.foldl (fun cv p => PutPixel p.x p.y col cv) canvas

/-- `DrawLine(p0, p1, col)`: its `PutPixel` calls applied to the buffer. -/
def DrawLine (p0 p1 : Point) (col : Color) (canvas : FrameBuffer) : Option FrameBuffer :=
  (DrawLineWrites p0 p1).map fun ws => putPixels col ws canvas

/-- `DrawWireframeTriangle(p0, p1, p2, col)`. -/
def DrawWireframeTriangle (p0 p1 p2 : Point) (col : Color) (canvas : FrameBuffer) :
    Option FrameBuffer :=
  (DrawLine p0 p1 col canvas).bind fun c1 =>
    (DrawLine p1 p2 col c1).bind fun c2 =>
      DrawLine p2 p0 col c2

/-- The pixel writes `DrawWireframeTriangle(p0, p1, p2, col)` attempts: those of its
three `DrawLine` calls, in the order of the calls. -/
def DrawWireframeTriangleWrites (p0 p1 p2 : Point) : Option (List Point) :=
  (DrawLineWrites p0 p1).bind fun w1 =>
    (DrawLineWrites p1 p2).bind fun w2 =>
      (DrawLineWrites p2 p0).bind fun w3 => some (w1 ++ w2 ++ w3)

/-- The write `PutPixel(p.x, p.y, _)` passes the bounds test and lands on cell `i`. -/
def hits (p : Point) (i : Fin (Cw * Ch)) : Prop :=
  0 ≤ p.x ∧ p.x < 400 ∧ 0 ≤ p.y ∧ p.y < 400 ∧ (i : Int) = p.y * 400 + p.x

/-! ## Objects -/

/-- `RenderTriangle(tri, projectedVertices)`. -/
def RenderTriangle (tri : Triangle) (projectedVertices : List Point) (canvas : FrameBuffer) :
    Option FrameBuffer :=
  (vecAt projectedVertices tri.v0).bind fun q0 =>
    (vecAt projectedVertices tri.v1).bind fun q1 =>
      (vecAt projectedVertices tri.v2).bind fun q2 =>
        DrawWireframeTriangle q0 q1 q2 tri.color canvas

/-- The first loop of `RenderObject`: one `push_back(ProjectVertex(v))` for each
vertex, in order. -/
def projectLoop : List Vertex → List Point → List Point
  | [], projectedVerts => projectedVerts
  | v :: rest, projectedVerts => projectLoop rest (projectedVerts ++ [ProjectVertex v])

/-- The second loop of `RenderObject`: one `RenderTriangle` for each triangle, in
order. -/
def renderLoop (projectedVerts : List Point) : List Triangle → FrameBuffer → Option FrameBuffer
  | [], canvas => some canvas
  | tri :: rest, canvas =>
    (RenderTriangle tri projectedVerts canvas).bind fun cv => renderLoop projectedVerts rest cv

/-- `RenderObject(vertices, triangles)`. -/
def RenderObject (vertices : List Vertex) (triangles : List Triangle) (canvas : FrameBuffer) :
    Option FrameBuffer :=
  let projectedVerts := projectLoop vertices []
  renderLoop projectedVerts triangles canvas

/-! ## The rounding reading of `float` -/

/-- Rounding to the nearest integer, the halfway cases going to the even one. -/
def roundEven (r : ℚ) : Int :=
  if r - (⌊r⌋ : ℚ) < 1 / 2 then ⌊r⌋
  else if 1 / 2 < r - (⌊r⌋ : ℚ) then ⌊r⌋ + 1
  else if ⌊r⌋ % 2 = 0 then ⌊r⌋ else ⌊r⌋ + 1

/-- The rounding of binary32 (round to nearest, ties to even): `q` is rounded to a
multiple of `2 ^ (e - 23)`, where `2 ^ e <= |q| < 2 ^ (e + 1)` and `e` is not taken
below `-126` (subnormal numbers). Overflow to infinity is not represented. -/
def fl32 (q : ℚ) : ℚ :=
  (roundEven (q / 2 ^ (max (Int.log 2 |q|) (-126) - 23)) : ℚ) *
    2 ^ (max (Int.log 2 |q|) (-126) - 23)

/-- The loop of `Interpolate` with `n` iterations left, the sum `val += step`
rounded by `fl`. -/
def interpolateLoopFl (fl : ℚ → ℚ) (step : ℚ) : Nat → ℚ → List ℚ → List ℚ
  | 0, _, values => values
  | n + 1, val, values => interpolateLoopFl fl step n (fl (val + step)) (values ++ [val])

/-- `Interpolate(i0, d0, i1, d1)` in the rounding reading: in
`step = (d1 - d0) / (i1 - i0)` the difference `d1 - d0`, the conversion of the `int`
`i1 - i0` and the quotient are rounded by `fl`. -/
def InterpolateFl (fl : ℚ → ℚ) (i0 : Int) (d0 : ℚ) (i1 : Int) (d1 : ℚ) : List ℚ :=
  if i0 = i1 then
    [d0]
  else
    let step := fl (fl (d1 - d0) / fl ((i1 - i0 : Int) : ℚ))
    interpolateLoopFl fl step (i1 + 1 - i0).toNat d0 []

/-- The first branch of `DrawLine` after its conditional swap, in the rounding
reading: the `int` arguments `y0`, `y1` are converted to the `float` parameters of
`Interpolate`. -/
def drawXMajorFl (fl : ℚ → ℚ) (x0 y0 x1 y1 : Int) : Option (List Point) :=
  let ys := InterpolateFl fl x0 (fl (y0 : ℚ)) x1 (fl (y1 : ℚ))
  lineLoopX ys x0 (x1 + 1 - x0).toNat x0

/-- The second branch of `DrawLine` after its conditional swap, in the rounding
reading. -/
def drawYMajorFl (fl : ℚ → ℚ) (x0 y0 x1 y1 : Int) : Option (List Point) :=
  let xs := InterpolateFl fl y0 (fl (x0 : ℚ)) y1 (fl (x1 : ℚ))
  lineLoopY xs y0 (y1 + 1 - y0).toNat y0

/-- The pixel writes `DrawLine(p0, p1, col)` attempts, in the rounding reading. -/
def DrawLineWritesFl (fl : ℚ → ℚ) (p0 p1 : Point) : Option (List Point) :=
  let x0 := p0.x
  let y0 := p0.y
  let x1 := p1.x
  let y1 := p1.y
  let dx := x1 - x0
  let dy := y1 - y0
  if |dx| > |dy| then
    if x0 > x1 then drawXMajorFl fl x1 y1 x0 y0 else drawXMajorFl fl x0 y0 x1 y1
  else
    if y0 > y1 then drawYMajorFl fl x1 y1 x0 y0 else drawYMajorFl fl x0 y0 x1 y1

/-- `DrawLine(p0, p1, col)` in the rounding reading. -/
def DrawLineFl (fl : ℚ → ℚ) (p0 p1 : Point) (col : Color) (canvas : FrameBuffer) :
    Option FrameBuffer :=
  (DrawLineWritesFl fl p0 p1).map fun ws => putPixels col ws canvas

/-- `ViewportToCanvas(x, y)` in the rounding reading: the quotients `Vw / 2` and
`Cw / Vw`, the sum and the product are rounded by `fl` (the constants `2` and `Cw`
convert to `float` exactly). -/
def ViewportToCanvasFl (fl : ℚ → ℚ) (x y : ℚ) : Point :=
  let cx := ctrunc (fl (fl (x + fl (Vw / 2)) * fl ((Cw : ℚ) / Vw)))
  let cy := ctrunc (fl (fl (fl (viewportHeight / 2) - y) * fl ((Ch : ℚ) / viewportHeight)))
  ⟨cx, cy⟩

/-- `ProjectVertex(v)` in the rounding reading: the three sums of the translation,
the products by `d` and the quotients by `vt.z` are rounded by `fl`. -/
def ProjectVertexFl (fl : ℚ → ℚ) (v : Vertex) : Point :=
  let vt : Vertex := ⟨fl (v.x + T.x), fl (v.y + T.y), fl (v.z + T.z)⟩
  let px := fl (fl (vt.x * d) / vt.z)
  let py := fl (fl (vt.y * d) / vt.z)
  ViewportToCanvasFl fl px py

/-! ## The line rasteriser of the specification -/

/-- The Interpolator as the specification words it (section 4.2): the value at step
`k = i - i0` is `d0 + k·(d1 - d0)/(i1 - i0)`, and for `i0 == i1` the single value
is `d0`. -/
def specInterpolate (i0 : Int) (d0 : ℚ) (i1 : Int) (d1 : ℚ) (i : Int) : ℚ :=
  if i0 = i1 then d0 else d0 + ((i : ℚ) - (i0 : ℚ)) * (d1 - d0) / ((i1 : ℚ) - (i0 : ℚ))

/-- The specification's x-major case (section 4.3), the endpoints already ordered:
for each integer x of `[a.x, b.x]`, the pixel `(x, round(y(x)))`. -/
def specXMajor (a b : Point) : List Point :=
  (intRange a.x b.x).map fun (x : Int) =>
    (⟨x, cround (specInterpolate a.x (a.y : ℚ) b.x (b.y : ℚ) x)⟩ : Point)

/-- The specification's y-major case (section 4.3), the endpoints already ordered:
for each integer y of `[a.y, b.y]`, the pixel `(round(x(y)), y)`. -/
def specYMajor (a b : Point) : List Point :=
  (intRange a.y b.y).map fun (y : Int) =>
    (⟨cround (specInterpolate a.y (a.x : ℚ) b.y (b.x : ℚ) y), y⟩ : Point)

/-- The pixel writes of the Line Rasterizer as the specification words it
(section 4.3): x-major when `|dx| >= |dy|`, swapping the endpoints if needed so that
`x0 <= x1`; y-major otherwise, swapping if needed so that `y0 <= y1`. -/
def specDrawLineWrites (p0 p1 : Point) : List Point :=
  if |p1.x - p0.x| ≥ |p1.y - p0.y| then
    if p0.x ≤ p1.x then specXMajor p0 p1 else specXMajor p1 p0
  else
    if p0.y ≤ p1.y then specYMajor p0 p1 else specYMajor p1 p0

/-- The frame buffer the specification's Line Rasterizer produces: its pixel writes
go through the bounds-checked `PutPixel`. -/
def specDrawLine (p0 p1 : Point) (col : Color) (canvas : FrameBuffer) : FrameBuffer :=
  putPixels col (specDrawLineWrites p0 p1) canvas

/-! ## The image file -/

/-- The integer `n` as `operator<<` prints it: its decimal digits. -/
def decimal (n : Nat) : String := toString n

/-- The text `SaveCanvasToPPM` writes to the file: the header, then for
`i = 0, ..., Cw * Ch - 1` in order the three channels of `canvas[i]`, each
converted to `int`, separated by spaces and followed by a newline. -/
def SaveCanvasToPPM (canvas : FrameBuffer) : String :=
  (List.finRange (Cw * Ch)).foldl
    (fun out i =>
      out ++ decimal (canvas i).r.val ++ " " ++ decimal (canvas i).g.val ++ " " ++
        decimal (canvas i).b.val ++ "\n")
    ("P3\n" ++ decimal Cw ++ " " ++ decimal Ch ++ "\n255\n")

/-! ## The scene of `main` -/

/-- The vertices `baseVertices` of the cube. -/
def baseVertices : List Vertex :=
  [⟨1, 1, 1⟩, ⟨-1, 1, 1⟩, ⟨-1, -1, 1⟩, ⟨1, -1, 1⟩,
   ⟨1, 1, -1⟩, ⟨-1, 1, -1⟩, ⟨-1, -1, -1⟩, ⟨1, -1, -1⟩]

/-- The colour `red`. -/
def red : Color := ⟨255, 0, 0⟩

/-- The colour `green`. -/
def green : Color := ⟨0, 255, 0⟩

/-- The colour `blue`. -/
def blue : Color := ⟨0, 0, 255⟩

/-- The colour `yellow`. -/
def yellow : Color := ⟨255, 255, 0⟩

/-- The colour `purple`. -/
def purple : Color := ⟨128, 0, 128⟩

/-- The colour `cyan`. -/
def cyan : Color := ⟨0, 255, 255⟩

/-- The faces `triangles` of the cube. -/
def triangles : List Triangle :=
  [⟨0, 1, 2, red⟩, ⟨0, 2, 3, red⟩, ⟨4, 0, 3, green⟩, ⟨4, 3, 7, green⟩,
   ⟨5, 4, 7, blue⟩, ⟨5, 7, 6, blue⟩, ⟨1, 5, 6, yellow⟩, ⟨1, 6, 2, yellow⟩,
   ⟨4, 5, 1, purple⟩, ⟨4, 1, 0, purple⟩, ⟨2, 6, 7, cyan⟩, ⟨2, 7, 3, cyan⟩]

/-- The vertices `translatedVerts`: the cube shifted by `+3` in x and `+1` in z. -/
def translatedVerts : List Vertex :=
  baseVertices.map fun v => ⟨v.x + 3, v.y, v.z + 1⟩

/-- The scale factor `scaleFactor = 1.5f`. -/
def scaleFactor : ℚ := 3 / 2

/-- The vertices `scaledVerts`: the cube scaled by `scaleFactor`. -/
def scaledVerts : List Vertex :=
  baseVertices.map fun v => ⟨v.x * scaleFactor, v.y * scaleFactor, v.z * scaleFactor⟩

/-- The buffer `main` holds when it calls `SaveCanvasToPPM`: `Canvas()` followed by
the three `RenderObject` calls. -/
def mainCanvas : Option FrameBuffer :=
  (RenderObject baseVertices triangles Canvas).bind fun c1 =>
    (RenderObject translatedVerts triangles c1).bind fun c2 =>
      RenderObject scaledVerts triangles c2

/-! # Properties -/

/-! ## The frame buffer -/

/-- The cell `PutPixel` stores to, when the bounds test passes. -/
theorem PutPixel_apply (canvas : FrameBuffer) (x y : Int) (col : Color) (i : Fin (Cw * Ch)) :
    PutPixel x y col canvas i =
      if 0 ≤ x ∧ x < 400 ∧ 0 ≤ y ∧ y < 400 ∧ (i : Int) = y * 400 + x then col else canvas i := by
  unfold PutPixel
  have hlt : (i : Nat) < 160000 := i.isLt
  by_cases h : x ≥ 0 ∧ x < (Cw : Int) ∧ y ≥ 0 ∧ y < (Ch : Int)
  · rw [dif_pos h, Function.update_apply]
    simp only [Cw, Ch, Nat.cast_ofNat, Fin.ext_iff] at h ⊢
    by_cases hi : (i : Int) = y * 400 + x
    · rw [if_pos (by omega), if_pos ⟨h.1, h.2.1, h.2.2.1, h.2.2.2, hi⟩]
    · rw [if_neg (by omega), if_neg (fun hc => hi hc.2.2.2.2)]
  · rw [dif_neg h]
    simp only [Cw, Ch, Nat.cast_ofNat] at h
    rw [if_neg (fun hc => h ⟨hc.1, hc.2.1, hc.2.2.1, hc.2.2.2.1⟩)]

/-- C1: `PutPixel(x, y, col)` stores `col` in the cell of flat index `y*400 + x`
exactly when `0 <= x < 400` and `0 <= y < 400`, and changes no other cell; out of
range, as at `(-1,5)` and `(400,5)`, the whole buffer is unchanged, and at `(0,0)`
and `(399,399)` the store takes effect. -/
theorem PutPixel_spec (canvas : FrameBuffer) (x y : Int) (col : Color) :
    (∀ i : Fin (Cw * Ch), PutPixel x y col canvas i =
      if 0 ≤ x ∧ x < 400 ∧ 0 ≤ y ∧ y < 400 ∧ (i : Int) = y * 400 + x then col
      else canvas i) ∧
    (¬ (0 ≤ x ∧ x < 400 ∧ 0 ≤ y ∧ y < 400) → PutPixel x y col canvas = canvas) ∧
    PutPixel (-1) 5 col canvas = canvas ∧
    PutPixel 400 5 col canvas = canvas ∧
    PutPixel 0 0 col canvas ⟨0, by decide⟩ = col ∧
    PutPixel 399 399 col canvas ⟨159999, by decide⟩ = col := by
  refine ⟨PutPixel_apply canvas x y col, ?_, ?_, ?_, ?_, ?_⟩
  · intro h
    funext i
    rw [PutPixel_apply, if_neg (fun hc => h ⟨hc.1, hc.2.1, hc.2.2.1, hc.2.2.2.1⟩)]
  · funext i
    rw [PutPixel_apply, if_neg (by omega)]
  · funext i
    rw [PutPixel_apply, if_neg (by omega)]
  · rw [PutPixel_apply, if_pos (by simp)]
  · rw [PutPixel_apply, if_pos (by simp)]

/-! ## Interpolation -/

/-- The loop of `Interpolate` appends the values `val + k * step`, `k < n`. -/
theorem interpolateLoop_eq (step : ℚ) (n : Nat) (val : ℚ) (values : List ℚ) :
    interpolateLoop step n val values =
      values ++ (List.range n).map fun (k : Nat) => val + (k : ℚ) * step := by
  induction n generalizing val values with
  | zero => simp [interpolateLoop]
  | succ n ih =>
    rw [interpolateLoop, ih, List.range_succ_eq_map, List.map_cons, List.map_map,
      List.append_assoc]
    congr 1
    simp only [List.singleton_append, Nat.cast_zero, zero_mul, add_zero, List.cons.injEq,
      true_and]
    apply List.map_congr_left
    intro k _
    simp only [Function.comp_apply, Nat.cast_succ]
    ring

/-- With `i0 <= i1`, `Interpolate` returns the `i1 + 1 - i0` values
`d0 + k * step`, where `step = (d1 - d0) / (i1 - i0)`. -/
theorem Interpolate_of_le (i0 i1 : Int) (d0 d1 : ℚ) (h : i0 ≤ i1) :
    Interpolate i0 d0 i1 d1 =
      (List.range (i1 + 1 - i0).toNat).map fun (k : Nat) =>
        d0 + (k : ℚ) * ((d1 - d0) / ((i1 - i0 : Int) : ℚ)) := by
  unfold Interpolate
  by_cases he : i0 = i1
  · subst he
    simp
  · rw [if_neg he]
    simp only [interpolateLoop_eq, List.nil_append]

/-- The number of values `Interpolate` returns when `i0 <= i1`. -/
theorem Interpolate_length (i0 i1 : Int) (d0 d1 : ℚ) (h : i0 ≤ i1) :
    (Interpolate i0 d0 i1 d1).length = (i1 + 1 - i0).toNat := by
  rw [Interpolate_of_le i0 i1 d0 d1 h, List.length_map, List.length_range]

/-- The value `Interpolate` holds at an index inside its result. -/
theorem Interpolate_get (i0 i1 : Int) (d0 d1 : ℚ) (h : i0 ≤ i1) (k : Nat)
    (hk : (k : Int) ≤ i1 - i0) :
    (Interpolate i0 d0 i1 d1)[k]? =
      some (d0 + (k : ℚ) * ((d1 - d0) / ((i1 - i0 : Int) : ℚ))) := by
  rw [Interpolate_of_le i0 i1 d0 d1 h, List.getElem?_map, List.getElem?_range (by omega)]
  rfl

/-- C2: if `i0 == i1`, `Interpolate(i0, d0, i1, d1)` is the one-element sequence
`[d0]`; if `i1 > i0` it has `i1 - i0 + 1` elements, the one at step `k` being
`d0 + k*(d1 - d0)/(i1 - i0)`. -/
theorem Interpolate_spec (i0 i1 : Int) (d0 d1 : ℚ) :
    (i0 = i1 → Interpolate i0 d0 i1 d1 = [d0]) ∧
    (i0 < i1 →
      ((Interpolate i0 d0 i1 d1).length : Int) = i1 - i0 + 1 ∧
      ∀ k : Nat, (k : Int) ≤ i1 - i0 →
        (Interpolate i0 d0 i1 d1)[k]? =
          some (d0 + (k : ℚ) * (d1 - d0) / ((i1 : ℚ) - (i0 : ℚ)))) ∧
    Interpolate 3 5 3 9 = [5] ∧
    Interpolate 0 0 2 1 = [0, 1 / 2, 1] := by
  refine ⟨?_, ?_, ?_, ?_⟩
  · intro h
    simp [Interpolate, h]
  · intro h
    refine ⟨?_, ?_⟩
    · rw [Interpolate_length i0 i1 d0 d1 (le_of_lt h)]
      omega
    · intro k hk
      rw [Interpolate_get i0 i1 d0 d1 (le_of_lt h) k hk, Int.cast_sub, mul_div_assoc]
  · simp [Interpolate]
  · have h3 : ((2 : Int) + 1 - 0).toNat = 3 := by decide
    rw [Interpolate_of_le 0 2 0 1 (by decide), h3]
    norm_num [List.range_succ]

/-- C3: for `i1 > i0`, the first element of `Interpolate(i0, d0, i1, d1)` is `d0`,
the last one is `d1`, and the sequence is non-decreasing when `d1 >= d0` and
non-increasing when `d1 <= d0`. -/
theorem Interpolate_ends_monotone (i0 i1 : Int) (d0 d1 : ℚ) (h : i0 < i1) :
    (Interpolate i0 d0 i1 d1).head? = some d0 ∧
    (Interpolate i0 d0 i1 d1).getLast? = some d1 ∧
    (d0 ≤ d1 → (Interpolate i0 d0 i1 d1).Pairwise (· ≤ ·)) ∧
    (d1 ≤ d0 → (Interpolate i0 d0 i1 d1).Pairwise (· ≥ ·)) := by
  have hpos : (0 : ℚ) < ((i1 - i0 : Int) : ℚ) := by
    exact_mod_cast (by omega : (0 : Int) < i1 - i0)
  obtain ⟨n, hn⟩ : ∃ n : Nat, (i1 + 1 - i0).toNat = n + 1 := ⟨(i1 - i0).toNat, by omega⟩
  have hn2 : (n : ℚ) = ((i1 - i0 : Int) : ℚ) := by
    have : (n : Int) = i1 - i0 := by omega
    exact_mod_cast this
  rw [Interpolate_of_le i0 i1 d0 d1 (le_of_lt h), hn]
  refine ⟨?_, ?_, ?_, ?_⟩
  · simp [List.range_succ_eq_map]
  · rw [List.range_succ, List.map_append, List.map_singleton,
      List.getLast?_concat, hn2, mul_div_cancel₀ _ (ne_of_gt hpos)]
    simp
  · intro hd
    rw [List.pairwise_map]
    refine (List.pairwise_lt_range (n + 1)).imp ?_
    intro a b hab
    have hstep : 0 ≤ (d1 - d0) / ((i1 - i0 : Int) : ℚ) :=
      div_nonneg (sub_nonneg.mpr hd) (le_of_lt hpos)
    have hab2 : (a : ℚ) ≤ (b : ℚ) := by exact_mod_cast le_of_lt hab
    have := mul_le_mul_of_nonneg_right hab2 hstep
    linarith
  · intro hd
    rw [List.pairwise_map]
    refine (List.pairwise_lt_range (n + 1)).imp ?_
    intro a b hab
    have hstep : (d1 - d0) / ((i1 - i0 : Int) : ℚ) ≤ 0 :=
      div_nonpos_of_nonpos_of_nonneg (sub_nonpos.mpr hd) (le_of_lt hpos)
    have hab2 : (a : ℚ) ≤ (b : ℚ) := by exact_mod_cast le_of_lt hab
    have := mul_le_mul_of_nonpos_right hab2 hstep
    show d0 + (b : ℚ) * _ ≤ d0 + (a : ℚ) * _
    linarith

/-- C3 at `Interpolate(0, 0, 2, 1) = [0, 1/2, 1]`. -/
theorem Interpolate_ends_monotone_witness :
    (0 : Int) < 2 ∧
    ((Interpolate 0 0 2 1).head? = some 0 ∧
      (Interpolate 0 0 2 1).getLast? = some 1 ∧
      ((0 : ℚ) ≤ 1 → (Interpolate 0 0 2 1).Pairwise (· ≤ ·)) ∧
      ((1 : ℚ) ≤ 0 → (Interpolate 0 0 2 1).Pairwise (· ≥ ·))) :=
  ⟨by decide, Interpolate_ends_monotone 0 2 0 1 (by decide)⟩

/-! ## Rounding -/

/-- `cround` is rounding to the nearest integer, the halfway cases going away
from zero. -/
theorem cround_spec (q : ℚ) :
    |q - (cround q : ℚ)| ≤ 1 / 2 ∧ (|q - (cround q : ℚ)| = 1 / 2 → |q| < |(cround q : ℚ)|) := by
  unfold cround
  by_cases h : 0 ≤ q
  · rw [if_pos h]
    have h1 := Int.floor_le (q + 1 / 2)
    have h2 := Int.lt_floor_add_one (q + 1 / 2)
    refine ⟨abs_le.mpr ⟨by linarith, by linarith⟩, ?_⟩
    intro he
    have hq : q - (⌊q + 1 / 2⌋ : ℚ) = -(1 / 2) := by
      rcases abs_eq (by norm_num : (0 : ℚ) ≤ 1 / 2) |>.mp he with h3 | h3
      · linarith
      · exact h3
    rw [abs_of_nonneg h, abs_of_nonneg (by linarith)]
    linarith
  · rw [if_neg h]
    have h1 := Int.le_ceil (q - 1 / 2)
    have h2 := Int.ceil_lt_add_one (q - 1 / 2)
    have hlt : q < 0 := lt_of_not_ge h
    refine ⟨abs_le.mpr ⟨by linarith, by linarith⟩, ?_⟩
    intro he
    have hq : q - (⌈q - 1 / 2⌉ : ℚ) = 1 / 2 := by
      rcases abs_eq (by norm_num : (0 : ℚ) ≤ 1 / 2) |>.mp he with h3 | h3
      · exact h3
      · linarith
    rw [abs_of_neg hlt, abs_of_neg (by linarith)]
    linarith

/-- Rounding an integer value returns it. -/
theorem cround_intCast (n : Int) : cround (n : ℚ) = n := by
  unfold cround
  split
  · rw [Int.floor_eq_iff]
    constructor <;> linarith
  · rw [Int.ceil_eq_iff]
    constructor <;> linarith

/-! ## The pixel writes of a line -/

/-- A read of the result of `Interpolate` at an index of `[0, i1 - i0]`. -/
theorem vecAt_Interpolate (i0 i1 : Int) (d0 d1 : ℚ) (h : i0 ≤ i1) (j : Int) (h0 : 0 ≤ j)
    (h1 : j ≤ i1 - i0) :
    vecAt (Interpolate i0 d0 i1 d1) j =
      some (d0 + (j : ℚ) * (d1 - d0) / ((i1 : ℚ) - (i0 : ℚ))) := by
  unfold vecAt
  rw [if_pos h0, Interpolate_get i0 i1 d0 d1 h j.toNat (by omega), Int.cast_sub, mul_div_assoc]
  have hj : ((j.toNat : Int) : ℚ) = (j : ℚ) := by rw [Int.toNat_of_nonneg h0]
  rw [← hj, Int.cast_natCast]

/-- The x-major loop, when each of its reads succeeds. -/
theorem lineLoopX_eq (ys : List ℚ) (x0 : Int) (f : Int → ℚ) (n : Nat) (x : Int)
    (h : ∀ k : Nat, k < n → vecAt ys (x + (k : Int) - x0) = some (f (x + (k : Int)))) :
    lineLoopX ys x0 n x =
      some ((List.range n).map fun (k : Nat) => (⟨x + (k : Int), cround (f (x + (k : Int)))⟩ : Point)) := by
  induction n generalizing x with
  | zero => simp [lineLoopX]
  | succ n ih =>
    have h0 := h 0 (Nat.succ_pos n)
    simp only [Nat.cast_zero, add_zero] at h0
    have hrec : ∀ k : Nat, k < n →
        vecAt ys (x + 1 + (k : Int) - x0) = some (f (x + 1 + (k : Int))) := by
      intro k hk
      have := h (k + 1) (Nat.succ_lt_succ hk)
      rw [Nat.cast_succ, show x + ((k : Int) + 1) = x + 1 + (k : Int) by ring] at this
      exact this
    rw [lineLoopX, h0, ih (x + 1) hrec, List.range_succ_eq_map, List.map_cons, List.map_map]
    simp only [Option.map_some', Nat.cast_zero, add_zero, Option.some.injEq, List.cons.injEq,
      true_and]
    apply List.map_congr_left
    intro k _
    simp only [Function.comp_apply, Nat.cast_succ]
    rw [show x + ((k : Int) + 1) = x + 1 + (k : Int) by ring]

/-- The y-major loop, when each of its reads succeeds. -/
theorem lineLoopY_eq (xs : List ℚ) (y0 : Int) (f : Int → ℚ) (n : Nat) (y : Int)
    (h : ∀ k : Nat, k < n → vecAt xs (y + (k : Int) - y0) = some (f (y + (k : Int)))) :
    lineLoopY xs y0 n y =
      some ((List.range n).map fun (k : Nat) => (⟨cround (f (y + (k : Int))), y + (k : Int)⟩ : Point)) := by
  induction n generalizing y with
  | zero => simp [lineLoopY]
  | succ n ih =>
    have h0 := h 0 (Nat.succ_pos n)
    simp only [Nat.cast_zero, add_zero] at h0
    have hrec : ∀ k : Nat, k < n →
        vecAt xs (y + 1 + (k : Int) - y0) = some (f (y + 1 + (k : Int))) := by
      intro k hk
      have := h (k + 1) (Nat.succ_lt_succ hk)
      rw [Nat.cast_succ, show y + ((k : Int) + 1) = y + 1 + (k : Int) by ring] at this
      exact this
    rw [lineLoopY, h0, ih (y + 1) hrec, List.range_succ_eq_map, List.map_cons, List.map_map]
    simp only [Option.map_some', Nat.cast_zero, add_zero, Option.some.injEq, List.cons.injEq,
      true_and]
    apply List.map_congr_left
    intro k _
    simp only [Function.comp_apply, Nat.cast_succ]
    rw [show y + ((k : Int) + 1) = y + 1 + (k : Int) by ring]

/-- The writes of the x-major branch, for `x0 <= x1`. -/
theorem drawXMajor_eq (x0 y0 x1 y1 : Int) (h : x0 ≤ x1) :
    drawXMajor x0 y0 x1 y1 =
      some ((intRange x0 x1).map fun (x : Int) =>
        (⟨x, cround ((y0 : ℚ) + ((x : ℚ) - (x0 : ℚ)) * ((y1 : ℚ) - (y0 : ℚ)) /
          ((x1 : ℚ) - (x0 : ℚ)))⟩ : Point)) := by
  unfold drawXMajor intRange
  rw [List.map_map]
  refine lineLoopX_eq _ x0
    (fun (x : Int) => (y0 : ℚ) + ((x : ℚ) - (x0 : ℚ)) * ((y1 : ℚ) - (y0 : ℚ)) / ((x1 : ℚ) - (x0 : ℚ)))
    _ x0 ?_
  intro k hk
  rw [vecAt_Interpolate x0 x1 _ _ h _ (by omega) (by omega)]
  simp

/-- The writes of the y-major branch, for `y0 <= y1`. -/
theorem drawYMajor_eq (x0 y0 x1 y1 : Int) (h : y0 ≤ y1) :
    drawYMajor x0 y0 x1 y1 =
      some ((intRange y0 y1).map fun (y : Int) =>
        (⟨cround ((x0 : ℚ) + ((y : ℚ) - (y0 : ℚ)) * ((x1 : ℚ) - (x0 : ℚ)) /
          ((y1 : ℚ) - (y0 : ℚ))), y⟩ : Point)) := by
  unfold drawYMajor intRange
  rw [List.map_map]
  refine lineLoopY_eq _ y0
    (fun (y : Int) => (x0 : ℚ) + ((y : ℚ) - (y0 : ℚ)) * ((x1 : ℚ) - (x0 : ℚ)) / ((y1 : ℚ) - (y0 : ℚ)))
    _ y0 ?_
  intro k hk
  rw [vecAt_Interpolate y0 y1 _ _ h _ (by omega) (by omega)]
  simp

/-- Membership in `intRange`. -/
theorem mem_intRange (a b y : Int) : y ∈ intRange a b ↔ a ≤ y ∧ y ≤ b := by
  unfold intRange
  rw [List.mem_map]
  constructor
  · rintro ⟨k, hk, rfl⟩
    rw [List.mem_range] at hk
    omega
  · rintro ⟨h1, h2⟩
    exact ⟨(y - a).toNat, by rw [List.mem_range]; omega, by omega⟩

/-- On an exact diagonal, `x1 - x0 = s * (y1 - y0)`, the y-major branch writes the
lattice points of the diagonal. -/
theorem drawYMajor_diagonal (x0 y0 x1 y1 s : Int) (hy : y0 ≤ y1)
    (hd : x1 - x0 = s * (y1 - y0)) :
    drawYMajor x0 y0 x1 y1 =
      some ((intRange y0 y1).map fun (y : Int) => (⟨x0 + s * (y - y0), y⟩ : Point)) := by
  rw [drawYMajor_eq x0 y0 x1 y1 hy]
  congr 1
  apply List.map_congr_left
  intro y hmem
  rw [mem_intRange] at hmem
  have hq : (x0 : ℚ) + ((y : ℚ) - (y0 : ℚ)) * ((x1 : ℚ) - (x0 : ℚ)) / ((y1 : ℚ) - (y0 : ℚ)) =
      ((x0 + s * (y - y0) : Int) : ℚ) := by
    have hdq : (x1 : ℚ) - (x0 : ℚ) = (s : ℚ) * ((y1 : ℚ) - (y0 : ℚ)) := by exact_mod_cast hd
    by_cases he : y1 = y0
    · have hyy : y = y0 := by omega
      subst he hyy
      simp
    · have hne : (y1 : ℚ) - (y0 : ℚ) ≠ 0 := by
        intro hc
        apply he
        exact_mod_cast sub_eq_zero.mp hc
      rw [hdq]
      push_cast
      field_simp
      ring
  rw [hq, cround_intCast]

/-- The x-major branch on a horizontal segment writes its lattice points. -/
theorem drawXMajor_horizontal (x0 x1 y : Int) (h : x0 ≤ x1) :
    drawXMajor x0 y x1 y = some ((intRange x0 x1).map fun (x : Int) => (⟨x, y⟩ : Point)) := by
  rw [drawXMajor_eq x0 y x1 y h]
  simp only [sub_self, mul_zero, zero_div, add_zero, cround_intCast]

/-- The y-major branch on a vertical segment writes its lattice points. -/
theorem drawYMajor_vertical (x y0 y1 : Int) (h : y0 ≤ y1) :
    drawYMajor x y0 x y1 = some ((intRange y0 y1).map fun (y : Int) => (⟨x, y⟩ : Point)) := by
  rw [drawYMajor_eq x y0 x y1 h]
  simp only [sub_self, mul_zero, zero_div, add_zero, cround_intCast]

/-! ## Projection -/

/-- Every read of `DrawLine` falls inside the interpolated vector: the writes are
always defined. -/
theorem DrawLineWrites_some (p0 p1 : Point) : ∃ ws, DrawLineWrites p0 p1 = some ws := by
  unfold DrawLineWrites
  simp only
  split
  · split
    · exact ⟨_, drawXMajor_eq _ _ _ _ (by omega)⟩
    · exact ⟨_, drawXMajor_eq _ _ _ _ (by omega)⟩
  · split
    · exact ⟨_, drawYMajor_eq _ _ _ _ (by omega)⟩
    · exact ⟨_, drawYMajor_eq _ _ _ _ (by omega)⟩

/-- `DrawLine` returns a buffer. -/
theorem DrawLine_some (p0 p1 : Point) (col : Color) (canvas : FrameBuffer) :
    ∃ cv, DrawLine p0 p1 col canvas = some cv := by
  obtain ⟨ws, hws⟩ := DrawLineWrites_some p0 p1
  exact ⟨_, by rw [DrawLine, hws, Option.map_some']⟩

/-- `DrawWireframeTriangle` returns a buffer. -/
theorem DrawWireframeTriangle_some (p0 p1 p2 : Point) (col : Color) (canvas : FrameBuffer) :
    ∃ cv, DrawWireframeTriangle p0 p1 p2 col canvas = some cv := by
  obtain ⟨c1, h1⟩ := DrawLine_some p0 p1 col canvas
  obtain ⟨c2, h2⟩ := DrawLine_some p1 p2 col c1
  obtain ⟨c3, h3⟩ := DrawLine_some p2 p0 col c2
  exact ⟨c3, by rw [DrawWireframeTriangle, h1, Option.some_bind, h2, Option.some_bind, h3]⟩

/-- The projection loop appends the projection of each vertex, in order. -/
theorem projectLoop_eq (vs : List Vertex) (acc : List Point) :
    projectLoop vs acc = acc ++ vs.map ProjectVertex := by
  induction vs generalizing acc with
  | nil => simp [projectLoop]
  | cons v rest ih => rw [projectLoop, ih, List.append_assoc, List.map_cons, List.singleton_append]

/-- A read at a valid index returns the element there. -/
theorem vecAt_of_lt {α : Type} (l : List α) (i : Int) (dflt : α) (h0 : 0 ≤ i)
    (h1 : i < (l.length : Int)) : vecAt l i = some (l.getD i.toNat dflt) := by
  have hlt : i.toNat < l.length := by omega
  rw [vecAt, if_pos h0, List.getD_eq_getElem _ _ hlt, List.getElem?_eq_getElem hlt]

/-- C10: when every index of `ts` is a valid position of `vs`, `RenderObject(vs, ts)`
builds a sequence `proj` of the length of `vs` whose i-th entry is
`ProjectVertex(vs[i])`, and returns the buffer obtained by calling, for each
triangle `t` of `ts` in list order,
`DrawWireframeTriangle(proj[t.v[0]], proj[t.v[1]], proj[t.v[2]], t.color)`. -/
theorem RenderObject_spec (vs : List Vertex) (ts : List Triangle) (canvas : FrameBuffer)
    (hidx : ∀ t ∈ ts, (0 ≤ t.v0 ∧ t.v0 < (vs.length : Int)) ∧
      (0 ≤ t.v1 ∧ t.v1 < (vs.length : Int)) ∧ (0 ≤ t.v2 ∧ t.v2 < (vs.length : Int))) :
    ∃ proj : List Point,
      projectLoop vs [] = proj ∧
      proj.length = vs.length ∧
      (∀ (i : Nat) (h : i < vs.length), proj[i]? = some (ProjectVertex (vs.get ⟨i, h⟩))) ∧
      RenderObject vs ts canvas =
        ts.foldlM (fun cv t =>
          DrawWireframeTriangle (proj.getD t.v0.toNat ⟨0, 0⟩) (proj.getD t.v1.toNat ⟨0, 0⟩)
            (proj.getD t.v2.toNat ⟨0, 0⟩) t.color cv) canvas ∧
      ∃ cv, RenderObject vs ts canvas = some cv := by
  have hproj : projectLoop vs [] = vs.map ProjectVertex := by
    rw [projectLoop_eq, List.nil_append]
  have hlen : (vs.map ProjectVertex).length = vs.length := List.length_map _ _
  refine ⟨vs.map ProjectVertex, hproj, hlen, ?_, ?_⟩
  · intro i h
    rw [List.getElem?_map, List.getElem?_eq_getElem h]
    rfl
  · unfold RenderObject
    simp only [hproj]
    generalize vs.map ProjectVertex = proj at hlen
    induction ts generalizing canvas with
    | nil => exact ⟨rfl, canvas, rfl⟩
    | cons t rest ih =>
      obtain ⟨⟨h0a, h0b⟩, ⟨h1a, h1b⟩, ⟨h2a, h2b⟩⟩ := hidx t (List.mem_cons_self t rest)
      rw [← hlen] at h0b h1b h2b
      obtain ⟨cv, hcv⟩ := DrawWireframeTriangle_some (proj.getD t.v0.toNat ⟨0, 0⟩)
        (proj.getD t.v1.toNat ⟨0, 0⟩) (proj.getD t.v2.toNat ⟨0, 0⟩) t.color canvas
      have hrt : RenderTriangle t proj canvas = some cv := by
        rw [RenderTriangle, vecAt_of_lt proj t.v0 ⟨0, 0⟩ h0a h0b,
          vecAt_of_lt proj t.v1 ⟨0, 0⟩ h1a h1b, vecAt_of_lt proj t.v2 ⟨0, 0⟩ h2a h2b]
        simp only [Option.some_bind]
        exact hcv
      have ih2 := ih cv (fun t2 ht2 => hidx t2 (List.mem_cons_of_mem t ht2))
      rw [renderLoop, hrt, Option.some_bind, List.foldlM_cons, hcv]
      exact ih2

/-- C10 at the base cube of `main`, drawn on the white canvas. -/
theorem RenderObject_spec_witness :
    (∀ t ∈ triangles, (0 ≤ t.v0 ∧ t.v0 < (baseVertices.length : Int)) ∧
      (0 ≤ t.v1 ∧ t.v1 < (baseVertices.length : Int)) ∧
      (0 ≤ t.v2 ∧ t.v2 < (baseVertices.length : Int))) ∧
    ∃ proj : List Point,
      projectLoop baseVertices [] = proj ∧
      proj.length = baseVertices.length ∧
      (∀ (i : Nat) (h : i < baseVertices.length),
        proj[i]? = some (ProjectVertex (baseVertices.get ⟨i, h⟩))) ∧
      RenderObject baseVertices triangles Canvas =
        triangles.foldlM (fun cv t =>
          DrawWireframeTriangle (proj.getD t.v0.toNat ⟨0, 0⟩) (proj.getD t.v1.toNat ⟨0, 0⟩)
            (proj.getD t.v2.toNat ⟨0, 0⟩) t.color cv) Canvas ∧
      ∃ cv, RenderObject baseVertices triangles Canvas = some cv :=
  ⟨by simp [triangles, baseVertices],
    RenderObject_spec baseVertices triangles Canvas (by simp [triangles, baseVertices])⟩

/-! ## Triangles -/

/-- A cell on which one of the writes lands holds the colour afterwards. -/
theorem putPixels_hit (col : Color) (ws : List Point) (canvas : FrameBuffer)
    (i : Fin (Cw * Ch)) (h : ∃ p ∈ ws, hits p i) : putPixels col ws canvas i = col := by
  induction ws generalizing canvas with
  | nil => simp at h
  | cons q rest ih =>
    show putPixels col rest (PutPixel q.x q.y col canvas) i = col
    by_cases hr : ∃ p ∈ rest, hits p i
    · exact ih _ hr
    · obtain ⟨p, hp, hpi⟩ := h
      rcases List.mem_cons.mp hp with rfl | hp2
      · clear ih
        induction rest generalizing canvas with
        | nil =>
          show PutPixel p.x p.y col canvas i = col
          rw [PutPixel_apply]
          exact if_pos hpi
        | cons r rest2 ih2 =>
          show putPixels col rest2 (PutPixel r.x r.y col (PutPixel p.x p.y col canvas)) i = col
          have hr2 : ¬ ∃ p ∈ rest2, hits p i := fun ⟨a, ha, hai⟩ =>
            hr ⟨a, List.mem_cons_of_mem _ ha, hai⟩
          have hswap : PutPixel r.x r.y col (PutPixel p.x p.y col canvas) =
              PutPixel p.x p.y col (PutPixel r.x r.y col canvas) := by
            funext j
            simp only [PutPixel_apply]
            split <;> split <;> rfl
          rw [hswap]
          exact ih2 _ hr2 (List.mem_cons_self _ _)
      · exact absurd ⟨p, hp2, hpi⟩ hr

/-- A cell on which none of the writes lands keeps its colour. -/
theorem putPixels_miss (col : Color) (ws : List Point) (canvas : FrameBuffer)
    (i : Fin (Cw * Ch)) (h : ∀ p ∈ ws, ¬ hits p i) : putPixels col ws canvas i = canvas i := by
  induction ws generalizing canvas with
  | nil => rfl
  | cons q rest ih =>
    show putPixels col rest (PutPixel q.x q.y col canvas) i = canvas i
    rw [ih _ (fun p hp => h p (List.mem_cons_of_mem _ hp)), PutPixel_apply]
    exact if_neg (h q (List.mem_cons_self _ _))

/-- After a list of writes of one colour a cell holds that colour or its old one. -/
theorem putPixels_cases (col : Color) (ws : List Point) (canvas : FrameBuffer)
    (i : Fin (Cw * Ch)) : putPixels col ws canvas i = col ∨ putPixels col ws canvas i = canvas i := by
  by_cases h : ∃ p ∈ ws, hits p i
  · exact Or.inl (putPixels_hit col ws canvas i h)
  · refine Or.inr (putPixels_miss col ws canvas i ?_)
    intro p hp hpi
    exact h ⟨p, hp, hpi⟩

/-- Writes applied one list after the other are the writes of the joined list. -/
theorem putPixels_append (col : Color) (w1 w2 : List Point) (canvas : FrameBuffer) :
    putPixels col (w1 ++ w2) canvas = putPixels col w2 (putPixels col w1 canvas) := by
  simp [putPixels, List.foldl_append]

/-- C11: the pixel writes of `DrawWireframeTriangle(p0, p1, p2, col)` are those of
`DrawLine(p0, p1, col)`, then those of `DrawLine(p1, p2, col)`, then those of
`DrawLine(p2, p0, col)`, and nothing else: its effect on the buffer is that of these
`PutPixel` calls in that order, and the interior pixel `(1,1)` of the triangle
`(0,0)`, `(4,0)`, `(0,4)` is not written. -/
theorem DrawWireframeTriangle_writes (p0 p1 p2 : Point) :
    (∃ w1 w2 w3, DrawLineWrites p0 p1 = some w1 ∧ DrawLineWrites p1 p2 = some w2 ∧
      DrawLineWrites p2 p0 = some w3 ∧
      DrawWireframeTriangleWrites p0 p1 p2 = some (w1 ++ w2 ++ w3) ∧
      ∀ (col : Color) (canvas : FrameBuffer),
        DrawWireframeTriangle p0 p1 p2 col canvas =
          some (putPixels col (w1 ++ w2 ++ w3) canvas)) ∧
    (∃ ws, DrawWireframeTriangleWrites ⟨0, 0⟩ ⟨4, 0⟩ ⟨0, 4⟩ = some ws ∧
      (⟨1, 1⟩ : Point) ∉ ws) := by
  constructor
  · obtain ⟨w1, h1⟩ := DrawLineWrites_some p0 p1
    obtain ⟨w2, h2⟩ := DrawLineWrites_some p1 p2
    obtain ⟨w3, h3⟩ := DrawLineWrites_some p2 p0
    refine ⟨w1, w2, w3, h1, h2, h3, ?_, ?_⟩
    · simp only [DrawWireframeTriangleWrites, h1, h2, h3, Option.some_bind]
    · intro col canvas
      simp only [DrawWireframeTriangle, DrawLine, h1, h2, h3, Option.map_some',
        Option.some_bind, putPixels_append]
  · have e1 : DrawLineWrites ⟨0, 0⟩ ⟨4, 0⟩ = drawXMajor 0 0 4 0 := by simp [DrawLineWrites]
    have e2 : DrawLineWrites ⟨4, 0⟩ ⟨0, 4⟩ = drawYMajor 4 0 0 4 := by simp [DrawLineWrites]
    have e3 : DrawLineWrites ⟨0, 4⟩ ⟨0, 0⟩ = drawYMajor 0 0 0 4 := by simp [DrawLineWrites]
    have hw : DrawWireframeTriangleWrites ⟨0, 0⟩ ⟨4, 0⟩ ⟨0, 4⟩ =
        some ((intRange 0 4).map (fun (x : Int) => (⟨x, 0⟩ : Point)) ++
          (intRange 0 4).map (fun (y : Int) => (⟨4 + -1 * (y - 0), y⟩ : Point)) ++
          (intRange 0 4).map (fun (y : Int) => (⟨0, y⟩ : Point))) := by
      simp only [DrawWireframeTriangleWrites, e1, e2, e3,
        drawXMajor_horizontal 0 4 0 (by decide), drawYMajor_vertical 0 0 4 (by decide),
        drawYMajor_diagonal 4 0 0 4 (-1) (by decide) (by decide), Option.some_bind]
    refine ⟨_, hw, ?_⟩
    simp [intRange, Int.toNat, List.range_succ]

/-! ## Colours of the rendered buffer -/

/-- After `DrawLine` a cell holds the line colour or its old colour. -/
theorem DrawLine_cell (p0 p1 : Point) (col : Color) (canvas cv : FrameBuffer)
    (h : DrawLine p0 p1 col canvas = some cv) (i : Fin (Cw * Ch)) :
    cv i = col ∨ cv i = canvas i := by
  obtain ⟨ws, hws⟩ := DrawLineWrites_some p0 p1
  rw [DrawLine, hws, Option.map_some', Option.some.injEq] at h
  rw [← h]
  exact putPixels_cases col ws canvas i

/-- After `DrawWireframeTriangle` a cell holds the triangle colour or its old
colour. -/
theorem DrawWireframeTriangle_cell (p0 p1 p2 : Point) (col : Color) (canvas cv : FrameBuffer)
    (h : DrawWireframeTriangle p0 p1 p2 col canvas = some cv) (i : Fin (Cw * Ch)) :
    cv i = col ∨ cv i = canvas i := by
  obtain ⟨c1, h1⟩ := DrawLine_some p0 p1 col canvas
  obtain ⟨c2, h2⟩ := DrawLine_some p1 p2 col c1
  rw [DrawWireframeTriangle, h1, Option.some_bind, h2, Option.some_bind] at h
  rcases DrawLine_cell p2 p0 col c2 cv h i with h3 | h3
  · exact Or.inl h3
  · rcases DrawLine_cell p1 p2 col c1 c2 h2 i with h4 | h4
    · exact Or.inl (h3.trans h4)
    · rcases DrawLine_cell p0 p1 col canvas c1 h1 i with h5 | h5
      · exact Or.inl (h3.trans (h4.trans h5))
      · exact Or.inr (h3.trans (h4.trans h5))

/-- After `RenderTriangle` a cell holds the triangle colour or its old colour. -/
theorem RenderTriangle_cell (t : Triangle) (proj : List Point) (canvas cv : FrameBuffer)
    (h : RenderTriangle t proj canvas = some cv) (i : Fin (Cw * Ch)) :
    cv i = t.color ∨ cv i = canvas i := by
  unfold RenderTriangle at h
  cases h0 : vecAt proj t.v0 with
  | none => rw [h0] at h; simp at h
  | some q0 =>
    cases h1 : vecAt proj t.v1 with
    | none => rw [h0, h1] at h; simp at h
    | some q1 =>
      cases h2 : vecAt proj t.v2 with
      | none => rw [h0, h1, h2] at h; simp at h
      | some q2 =>
        rw [h0, h1, h2] at h
        simp only [Option.some_bind] at h
        exact DrawWireframeTriangle_cell q0 q1 q2 t.color canvas cv h i

/-- After the triangle loop a cell holds its old colour or the colour of one of
the triangles. -/
theorem renderLoop_cell (proj : List Point) (ts : List Triangle) (canvas cv : FrameBuffer)
    (h : renderLoop proj ts canvas = some cv) (i : Fin (Cw * Ch)) :
    cv i = canvas i ∨ ∃ t ∈ ts, cv i = t.color := by
  induction ts generalizing canvas with
  | nil =>
    rw [renderLoop, Option.some.injEq] at h
    exact Or.inl (by rw [h])
  | cons t rest ih =>
    rw [renderLoop] at h
    cases ht : RenderTriangle t proj canvas with
    | none => rw [ht] at h; simp at h
    | some c1 =>
      rw [ht, Option.some_bind] at h
      rcases ih c1 h with h1 | ⟨t2, ht2, h2⟩
      · rcases RenderTriangle_cell t proj canvas c1 ht i with h3 | h3
        · exact Or.inr ⟨t, List.mem_cons_self _ _, h1.trans h3⟩
        · exact Or.inl (h1.trans h3)
      · exact Or.inr ⟨t2, List.mem_cons_of_mem _ ht2, h2⟩

/-- With valid indices the triangle loop returns a buffer. -/
theorem renderLoop_some (proj : List Point) (ts : List Triangle) (canvas : FrameBuffer)
    (hidx : ∀ t ∈ ts, (0 ≤ t.v0 ∧ t.v0 < (proj.length : Int)) ∧
      (0 ≤ t.v1 ∧ t.v1 < (proj.length : Int)) ∧ (0 ≤ t.v2 ∧ t.v2 < (proj.length : Int))) :
    ∃ cv, renderLoop proj ts canvas = some cv := by
  induction ts generalizing canvas with
  | nil => exact ⟨canvas, rfl⟩
  | cons t rest ih =>
    obtain ⟨⟨h0a, h0b⟩, ⟨h1a, h1b⟩, ⟨h2a, h2b⟩⟩ := hidx t (List.mem_cons_self t rest)
    obtain ⟨c1, hc1⟩ := DrawWireframeTriangle_some (proj.getD t.v0.toNat ⟨0, 0⟩)
      (proj.getD t.v1.toNat ⟨0, 0⟩) (proj.getD t.v2.toNat ⟨0, 0⟩) t.color canvas
    obtain ⟨cv, hcv⟩ := ih c1 (fun t2 ht2 => hidx t2 (List.mem_cons_of_mem t ht2))
    refine ⟨cv, ?_⟩
    rw [renderLoop, RenderTriangle, vecAt_of_lt proj t.v0 ⟨0, 0⟩ h0a h0b,
      vecAt_of_lt proj t.v1 ⟨0, 0⟩ h1a h1b, vecAt_of_lt proj t.v2 ⟨0, 0⟩ h2a h2b]
    simp only [Option.some_bind]
    rw [hc1, Option.some_bind, hcv]

/-- With valid indices `RenderObject` returns a buffer whose cells hold their old
colour or the colour of one of the triangles. -/
theorem RenderObject_cells (vs : List Vertex) (ts : List Triangle) (canvas : FrameBuffer)
    (hidx : ∀ t ∈ ts, (0 ≤ t.v0 ∧ t.v0 < (vs.length : Int)) ∧
      (0 ≤ t.v1 ∧ t.v1 < (vs.length : Int)) ∧ (0 ≤ t.v2 ∧ t.v2 < (vs.length : Int))) :
    ∃ cv, RenderObject vs ts canvas = some cv ∧
      ∀ i : Fin (Cw * Ch), cv i = canvas i ∨ ∃ t ∈ ts, cv i = t.color := by
  have hlen : (projectLoop vs []).length = vs.length := by
    rw [projectLoop_eq, List.nil_append, List.length_map]
  obtain ⟨cv, hcv⟩ := renderLoop_some (projectLoop vs []) ts canvas (by rw [hlen]; exact hidx)
  exact ⟨cv, hcv, renderLoop_cell _ ts canvas cv hcv⟩

/-- The indices of `triangles` are positions of an 8-vertex list. -/
theorem triangles_valid : ∀ t ∈ triangles, (0 ≤ t.v0 ∧ t.v0 < 8) ∧
    (0 ≤ t.v1 ∧ t.v1 < 8) ∧ (0 ≤ t.v2 ∧ t.v2 < 8) := by
  simp [triangles]

/-- The colours of `triangles`. -/
theorem triangles_color : ∀ t ∈ triangles, t.color = red ∨ t.color = green ∨
    t.color = blue ∨ t.color = yellow ∨ t.color = purple ∨ t.color = cyan := by
  simp [triangles]

/-- C12: with valid indices, after `RenderObject` each cell holds the colour it held
before or the colour of one of the triangles; so after `Canvas()` and the three
renders of `main` every cell is white `(255,255,255)`, red, green, blue, yellow,
purple `(128,0,128)` or cyan. -/
theorem RenderObject_colors (vs : List Vertex) (ts : List Triangle) (canvas : FrameBuffer)
    (hidx : ∀ t ∈ ts, (0 ≤ t.v0 ∧ t.v0 < (vs.length : Int)) ∧
      (0 ≤ t.v1 ∧ t.v1 < (vs.length : Int)) ∧ (0 ≤ t.v2 ∧ t.v2 < (vs.length : Int))) :
    (∃ cv, RenderObject vs ts canvas = some cv ∧
      ∀ i : Fin (Cw * Ch), cv i = canvas i ∨ ∃ t ∈ ts, cv i = t.color) ∧
    (∃ cv, mainCanvas = some cv ∧
      ∀ i : Fin (Cw * Ch), cv i = ⟨255, 255, 255⟩ ∨ cv i = red ∨ cv i = green ∨
        cv i = blue ∨ cv i = yellow ∨ cv i = ⟨128, 0, 128⟩ ∨ cv i = cyan) := by
  refine ⟨RenderObject_cells vs ts canvas hidx, ?_⟩
  have hb : (baseVertices.length : Int) = 8 := rfl
  have ht : (translatedVerts.length : Int) = 8 := rfl
  have hs : (scaledVerts.length : Int) = 8 := rfl
  obtain ⟨c1, h1, k1⟩ := RenderObject_cells baseVertices triangles Canvas
    (by rw [hb]; exact triangles_valid)
  obtain ⟨c2, h2, k2⟩ := RenderObject_cells translatedVerts triangles c1
    (by rw [ht]; exact triangles_valid)
  obtain ⟨c3, h3, k3⟩ := RenderObject_cells scaledVerts triangles c2
    (by rw [hs]; exact triangles_valid)
  refine ⟨c3, by rw [mainCanvas, h1, Option.some_bind, h2, Option.some_bind, h3], ?_⟩
  intro i
  have key : ∀ c : Color, (∃ t ∈ triangles, c = t.color) →
      c = ⟨255, 255, 255⟩ ∨ c = red ∨ c = green ∨ c = blue ∨ c = yellow ∨
        c = ⟨128, 0, 128⟩ ∨ c = cyan := by
    rintro c ⟨t, ht, rfl⟩
    have hcol := triangles_color t ht
    have hpurple : purple = (⟨128, 0, 128⟩ : Color) := rfl
    rw [hpurple] at hcol
    exact Or.inr hcol
  rcases k3 i with e3 | e3
  · rcases k2 i with e2 | e2
    · rcases k1 i with e1 | e1
      · exact Or.inl (e3.trans (e2.trans e1))
      · exact key _ (by rw [e3, e2]; exact e1)
    · exact key _ (by rw [e3]; exact e2)
  · exact key _ e3

/-- C12 at the base cube of `main`, drawn on the white canvas. -/
theorem RenderObject_colors_witness :
    (∀ t ∈ triangles, (0 ≤ t.v0 ∧ t.v0 < (baseVertices.length : Int)) ∧
      (0 ≤ t.v1 ∧ t.v1 < (baseVertices.length : Int)) ∧
      (0 ≤ t.v2 ∧ t.v2 < (baseVertices.length : Int))) ∧
    ∃ cv, RenderObject baseVertices triangles Canvas = some cv ∧
      ∀ i : Fin (Cw * Ch), cv i = Canvas i ∨ ∃ t ∈ triangles, cv i = t.color :=
  ⟨by simp [triangles, baseVertices],
    (RenderObject_colors baseVertices triangles Canvas (by simp [triangles, baseVertices])).1⟩

/-! ## The image file -/

/-- Joining a list of strings that starts with `s`. -/
theorem join_cons_string (s : String) (l : List String) :
    String.join (s :: l) = s ++ String.join l := by
  rw [String.join_eq, String.join_eq]
  apply String.ext
  simp

/-- A loop that appends `f a` for each `a` of a list appends their join. -/
theorem foldl_append_string {α : Type} (f : α → String) (l : List α) (init : String) :
    l.foldl (fun out a => out ++ f a) init = init ++ String.join (l.map f) := by
  induction l generalizing init with
  | nil => simp [String.join]
  | cons a rest ih =>
    rw [List.foldl_cons, ih, List.map_cons, join_cons_string, String.append_assoc]

set_option maxRecDepth 100000 in
/-- The decimal text of a channel value is made of digits, and they denote the
value. -/
theorem decimal_channel : ∀ n : Fin 256,
    (∀ c ∈ (decimal n.val).data, c.isDigit = true) ∧
    (decimal n.val).data.foldl (fun acc c => 10 * acc + (c.toNat - 48)) 0 = n.val := by
  decide

/-- C13: the text `SaveCanvasToPPM` writes is the header `P3\n400 400\n255\n`
followed by 160000 lines, line `y*400 + x` holding the decimal red, green and blue
values of the cell of pixel `(x, y)`, each in `0..255`, separated by single
spaces. -/
theorem SaveCanvasToPPM_format (canvas : FrameBuffer) :
    ∃ lines : List String,
      SaveCanvasToPPM canvas =
        "P3\n400 400\n255\n" ++ String.join (lines.map fun l => l ++ "\n") ∧
      lines.length = 160000 ∧
      (∀ (i : Fin (Cw * Ch)) (x y : Nat), x < 400 → (i : Nat) = y * 400 + x →
        lines[y * 400 + x]? =
          some (decimal (canvas i).r.val ++ " " ++ decimal (canvas i).g.val ++ " " ++
            decimal (canvas i).b.val)) ∧
      (∀ l ∈ lines, '\n' ∉ l.data) ∧
      (∀ n : Fin 256, n.val ≤ 255 ∧ (∀ c ∈ (decimal n.val).data, c.isDigit = true) ∧
        (decimal n.val).data.foldl (fun acc c => 10 * acc + (c.toNat - 48)) 0 = n.val) := by
  refine ⟨(List.finRange (Cw * Ch)).map fun i =>
    decimal (canvas i).r.val ++ " " ++ decimal (canvas i).g.val ++ " " ++
      decimal (canvas i).b.val, ?_, ?_, ?_, ?_, ?_⟩
  · have hhead : "P3\n" ++ decimal Cw ++ " " ++ decimal Ch ++ "\n255\n" =
        "P3\n400 400\n255\n" := by decide
    have hbody : ∀ (out : String) (i : Fin (Cw * Ch)),
        out ++ decimal (canvas i).r.val ++ " " ++ decimal (canvas i).g.val ++ " " ++
          decimal (canvas i).b.val ++ "\n" =
        out ++ (decimal (canvas i).r.val ++ " " ++ decimal (canvas i).g.val ++ " " ++
          decimal (canvas i).b.val ++ "\n") := by
      intro out i
      simp only [String.append_assoc]
    rw [SaveCanvasToPPM, hhead]
    simp only [hbody]
    rw [foldl_append_string, List.map_map]
    rfl
  · rw [List.length_map, List.length_finRange]
    rfl
  · intro i x y _ hi
    have hlt : y * 400 + x < (List.finRange (Cw * Ch)).length := by
      rw [List.length_finRange, ← hi]
      exact i.isLt
    rw [List.getElem?_map, List.getElem?_eq_getElem hlt, List.getElem_finRange, Option.map_some']
    have hfin : Fin.cast (List.length_finRange (Cw * Ch)) ⟨y * 400 + x, hlt⟩ = i :=
      Fin.ext hi.symm
    rw [hfin]
  · intro l hl
    rw [List.mem_map] at hl
    obtain ⟨i, _, rfl⟩ := hl
    have hd : ∀ n : Fin 256, '\n' ∉ (decimal n.val).data := by
      intro n hmem
      have := (decimal_channel n).1 _ hmem
      exact absurd this (by decide)
    simp only [String.data_append, List.mem_append, not_or]
    exact ⟨⟨⟨⟨hd _, by decide⟩, hd _⟩, by decide⟩, hd _⟩
  · intro n
    exact ⟨Nat.le_of_lt_succ n.isLt, decimal_channel n⟩

/-! ## The scene of `main` -/

/-- C14: in the scene of `main` each of the three vertex lists has 8 vertices, every
index of the 12 triangles is one of `0..7`, and for every vertex of the base cube,
of the translated cube and of the scaled cube the depth `v.z + 7` that
`ProjectVertex` divides by is strictly positive. -/
theorem scene_preconditions :
    triangles.length = 12 ∧
    baseVertices.length = 8 ∧ translatedVerts.length = 8 ∧ scaledVerts.length = 8 ∧
    (∀ t ∈ triangles, (0 ≤ t.v0 ∧ t.v0 ≤ 7) ∧ (0 ≤ t.v1 ∧ t.v1 ≤ 7) ∧ (0 ≤ t.v2 ∧ t.v2 ≤ 7)) ∧
    (∀ v ∈ baseVertices, 0 < v.z + 7 ∧ v.z + T.z = v.z + 7) ∧
    (∀ v ∈ translatedVerts, 0 < v.z + 7 ∧ v.z + T.z = v.z + 7) ∧
    (∀ v ∈ scaledVerts, 0 < v.z + 7 ∧ v.z + T.z = v.z + 7) ∧
    translatedVerts =
      [⟨4, 1, 2⟩, ⟨2, 1, 2⟩, ⟨2, -1, 2⟩, ⟨4, -1, 2⟩, ⟨4, 1, 0⟩, ⟨2, 1, 0⟩, ⟨2, -1, 0⟩,
        ⟨4, -1, 0⟩] ∧
    scaledVerts =
      [⟨3 / 2, 3 / 2, 3 / 2⟩, ⟨-3 / 2, 3 / 2, 3 / 2⟩, ⟨-3 / 2, -3 / 2, 3 / 2⟩,
        ⟨3 / 2, -3 / 2, 3 / 2⟩, ⟨3 / 2, 3 / 2, -3 / 2⟩, ⟨-3 / 2, 3 / 2, -3 / 2⟩,
        ⟨-3 / 2, -3 / 2, -3 / 2⟩, ⟨3 / 2, -3 / 2, -3 / 2⟩] := by
  refine ⟨rfl, rfl, rfl, rfl, ?_, ?_, ?_, ?_, ?_, ?_⟩
  · simp [triangles]
  · simp only [baseVertices, T]
    norm_num
  · simp only [translatedVerts, baseVertices, T]
    norm_num
  · simp only [scaledVerts, baseVertices, scaleFactor, T]
    norm_num
  · simp only [translatedVerts, baseVertices]
    norm_num
  · simp only [scaledVerts, baseVertices, scaleFactor]
    norm_num

/-! ## Safety and symmetry of `DrawLine` -/

/-- The branch `DrawLine` takes and the endpoints after its conditional swap: `a` is
the endpoint the loop starts from, `b` the one it ends at. -/
theorem DrawLineWrites_branch (p0 p1 : Point) :
    ∃ a b : Point, ((a = p0 ∧ b = p1) ∨ (a = p1 ∧ b = p0)) ∧
      ((|p1.x - p0.x| > |p1.y - p0.y| ∧ a.x < b.x ∧ |b.y - a.y| < b.x - a.x ∧
          DrawLineWrites p0 p1 = drawXMajor a.x a.y b.x b.y) ∨
        (¬ |p1.x - p0.x| > |p1.y - p0.y| ∧ a.y ≤ b.y ∧ |b.x - a.x| ≤ b.y - a.y ∧
          DrawLineWrites p0 p1 = drawYMajor a.x a.y b.x b.y)) := by
  unfold DrawLineWrites
  simp only
  by_cases hgt : |p1.x - p0.x| > |p1.y - p0.y|
  · simp only [if_pos hgt]
    by_cases hswap : p0.x > p1.x
    · refine ⟨p1, p0, Or.inr ⟨rfl, rfl⟩, Or.inl ⟨hgt, hswap, ?_, by rw [if_pos hswap]⟩⟩
      rw [abs_sub_comm p0.y p1.y]
      rw [abs_of_neg (by omega)] at hgt
      omega
    · refine ⟨p0, p1, Or.inl ⟨rfl, rfl⟩, Or.inl ⟨hgt, ?_, ?_, by rw [if_neg hswap]⟩⟩
      · have hne : p1.x - p0.x ≠ 0 := by
          intro h0
          rw [h0, abs_zero] at hgt
          exact absurd hgt (not_lt.mpr (abs_nonneg _))
        omega
      · rw [abs_of_nonneg (by omega)] at hgt
        exact hgt
  · simp only [if_neg hgt]
    have hle := le_of_not_gt hgt
    by_cases hswap : p0.y > p1.y
    · refine ⟨p1, p0, Or.inr ⟨rfl, rfl⟩, Or.inr ⟨hgt, le_of_lt hswap, ?_, by rw [if_pos hswap]⟩⟩
      rw [abs_sub_comm p0.x p1.x]
      rw [abs_of_neg (a := p1.y - p0.y) (by omega)] at hle
      omega
    · refine ⟨p0, p1, Or.inl ⟨rfl, rfl⟩, Or.inr ⟨hgt, le_of_not_gt hswap, ?_, by rw [if_neg hswap]⟩⟩
      rw [abs_of_nonneg (a := p1.y - p0.y) (by omega)] at hle
      exact hle

/-- The writes of a line do not depend on the order of its endpoints. -/
theorem DrawLineWrites_comm (p0 p1 : Point) : DrawLineWrites p0 p1 = DrawLineWrites p1 p0 := by
  unfold DrawLineWrites
  simp only
  rw [abs_sub_comm p0.x p1.x, abs_sub_comm p0.y p1.y]
  by_cases hgt : |p1.x - p0.x| > |p1.y - p0.y|
  · simp only [if_pos hgt]
    have hne : p1.x ≠ p0.x := by
      intro h0
      rw [h0, sub_self, abs_zero] at hgt
      exact absurd hgt (not_lt.mpr (abs_nonneg _))
    by_cases hswap : p0.x > p1.x
    · rw [if_pos hswap, if_neg (by omega)]
    · rw [if_neg hswap, if_pos (by omega)]
  · simp only [if_neg hgt]
    by_cases hswap : p0.y > p1.y
    · rw [if_pos hswap, if_neg (by omega)]
    · rw [if_neg hswap]
      by_cases hlt : p1.y > p0.y
      · rw [if_pos hlt]
      · rw [if_neg hlt]
        have hy : p1.y = p0.y := by omega
        have hx : p1.x = p0.x := by
          rw [hy, sub_self, abs_zero, not_lt] at hgt
          have := abs_eq_zero.mp (le_antisymm hgt (abs_nonneg _))
          omega
        rw [hx, hy]

/-- C20: `DrawLine(p0, p1, col)` and `DrawLine(p1, p0, col)` attempt the same sequence
of pixel writes and produce the same frame buffer. -/
theorem DrawLine_symmetric (p0 p1 : Point) (col : Color) (canvas : FrameBuffer) :
    DrawLineWrites p0 p1 = DrawLineWrites p1 p0 ∧
    DrawLine p0 p1 col canvas = DrawLine p1 p0 col canvas ∧
    ∃ cv, DrawLine p0 p1 col canvas = some cv := by
  refine ⟨DrawLineWrites_comm p0 p1, ?_, DrawLine_some p0 p1 col canvas⟩
  rw [DrawLine, DrawLine, DrawLineWrites_comm p0 p1]

/-- Rounding is monotone. -/
theorem cround_mono {a b : ℚ} (h : a ≤ b) : cround a ≤ cround b := by
  unfold cround
  by_cases ha : 0 ≤ a
  · rw [if_pos ha, if_pos (le_trans ha h)]
    exact Int.floor_mono (by linarith)
  · rw [if_neg ha]
    by_cases hb : 0 ≤ b
    · rw [if_pos hb]
      have h1 : ⌈a - 1 / 2⌉ ≤ 0 := Int.ceil_le.mpr (by push_cast; linarith [lt_of_not_ge ha])
      have h2 : 0 ≤ ⌊b + 1 / 2⌋ := Int.le_floor.mpr (by push_cast; linarith)
      exact le_trans h1 h2
    · rw [if_neg hb]
      exact Int.ceil_mono (by linarith)

/-- A rounded interpolated value lies between the two end values. -/
theorem cround_interp_between (a b : Int) (k n : ℚ) (hk : 0 ≤ k) (hkn : k ≤ n) :
    min a b ≤ cround ((a : ℚ) + k * ((b : ℚ) - (a : ℚ)) / n) ∧
    cround ((a : ℚ) + k * ((b : ℚ) - (a : ℚ)) / n) ≤ max a b := by
  have ht0 : 0 ≤ k / n := div_nonneg hk (le_trans hk hkn)
  have ht1 : k / n ≤ 1 := by
    by_cases hn : n = 0
    · rw [hn, div_zero]
      exact zero_le_one
    · have hpos : 0 < n := lt_of_le_of_ne (le_trans hk hkn) (Ne.symm hn)
      exact (div_le_one hpos).mpr hkn
  have hv : (a : ℚ) + k * ((b : ℚ) - (a : ℚ)) / n = (a : ℚ) + k / n * ((b : ℚ) - (a : ℚ)) := by
    ring
  rw [hv]
  rcases le_total a b with hab | hab
  · have habq : (a : ℚ) ≤ (b : ℚ) := by exact_mod_cast hab
    rw [min_eq_left hab, max_eq_right hab]
    constructor
    · have := cround_mono (a := (a : ℚ)) (b := (a : ℚ) + k / n * ((b : ℚ) - (a : ℚ)))
        (by nlinarith)
      rwa [cround_intCast] at this
    · have := cround_mono (a := (a : ℚ) + k / n * ((b : ℚ) - (a : ℚ))) (b := (b : ℚ))
        (by nlinarith)
      rwa [cround_intCast] at this
  · have habq : (b : ℚ) ≤ (a : ℚ) := by exact_mod_cast hab
    rw [min_eq_right hab, max_eq_left hab]
    constructor
    · have := cround_mono (a := (b : ℚ)) (b := (a : ℚ) + k / n * ((b : ℚ) - (a : ℚ)))
        (by nlinarith)
      rwa [cround_intCast] at this
    · have := cround_mono (a := (a : ℚ) + k / n * ((b : ℚ) - (a : ℚ))) (b := (a : ℚ))
        (by nlinarith)
      rwa [cround_intCast] at this

/-- The writes of the x-major branch lie in the box of its endpoints. -/
theorem drawXMajor_bounds (x0 y0 x1 y1 : Int) (h : x0 ≤ x1) :
    ∃ ws, drawXMajor x0 y0 x1 y1 = some ws ∧
      ∀ p ∈ ws, x0 ≤ p.x ∧ p.x ≤ x1 ∧ min y0 y1 ≤ p.y ∧ p.y ≤ max y0 y1 := by
  refine ⟨_, drawXMajor_eq x0 y0 x1 y1 h, ?_⟩
  intro p hp
  rw [List.mem_map] at hp
  obtain ⟨x, hx, rfl⟩ := hp
  rw [mem_intRange] at hx
  have hk : (0 : ℚ) ≤ (x : ℚ) - (x0 : ℚ) := by
    have : (x0 : ℚ) ≤ (x : ℚ) := by exact_mod_cast hx.1
    linarith
  have hkn : (x : ℚ) - (x0 : ℚ) ≤ (x1 : ℚ) - (x0 : ℚ) := by
    have : (x : ℚ) ≤ (x1 : ℚ) := by exact_mod_cast hx.2
    linarith
  have := cround_interp_between y0 y1 _ _ hk hkn
  exact ⟨hx.1, hx.2, this.1, this.2⟩

/-- The writes of the y-major branch lie in the box of its endpoints. -/
theorem drawYMajor_bounds (x0 y0 x1 y1 : Int) (h : y0 ≤ y1) :
    ∃ ws, drawYMajor x0 y0 x1 y1 = some ws ∧
      ∀ p ∈ ws, y0 ≤ p.y ∧ p.y ≤ y1 ∧ min x0 x1 ≤ p.x ∧ p.x ≤ max x0 x1 := by
  refine ⟨_, drawYMajor_eq x0 y0 x1 y1 h, ?_⟩
  intro p hp
  rw [List.mem_map] at hp
  obtain ⟨y, hy, rfl⟩ := hp
  rw [mem_intRange] at hy
  have hk : (0 : ℚ) ≤ (y : ℚ) - (y0 : ℚ) := by
    have : (y0 : ℚ) ≤ (y : ℚ) := by exact_mod_cast hy.1
    linarith
  have hkn : (y : ℚ) - (y0 : ℚ) ≤ (y1 : ℚ) - (y0 : ℚ) := by
    have : (y : ℚ) ≤ (y1 : ℚ) := by exact_mod_cast hy.2
    linarith
  have := cround_interp_between x0 x1 _ _ hk hkn
  exact ⟨hy.1, hy.2, this.1, this.2⟩

/-- The writes of a line lie in the box of its endpoints. -/
theorem DrawLineWrites_box (p0 p1 : Point) :
    ∃ ws, DrawLineWrites p0 p1 = some ws ∧
      ∀ p ∈ ws, min p0.x p1.x ≤ p.x ∧ p.x ≤ max p0.x p1.x ∧
        min p0.y p1.y ≤ p.y ∧ p.y ≤ max p0.y p1.y := by
  obtain ⟨a, b, hab, hX | hY⟩ := DrawLineWrites_branch p0 p1
  · obtain ⟨_, hlt, _, hw⟩ := hX
    obtain ⟨ws, h1, h2⟩ := drawXMajor_bounds a.x a.y b.x b.y (le_of_lt hlt)
    refine ⟨ws, by rw [hw, h1], ?_⟩
    intro p hp
    have := h2 p hp
    rcases hab with ⟨rfl, rfl⟩ | ⟨rfl, rfl⟩
    · rw [min_eq_left (le_of_lt hlt), max_eq_right (le_of_lt hlt)]
      exact this
    · rw [min_eq_right (le_of_lt hlt), max_eq_left (le_of_lt hlt), min_comm, max_comm]
      exact this
  · obtain ⟨_, hle, _, hw⟩ := hY
    obtain ⟨ws, h1, h2⟩ := drawYMajor_bounds a.x a.y b.x b.y hle
    refine ⟨ws, by rw [hw, h1], ?_⟩
    intro p hp
    have := h2 p hp
    rcases hab with ⟨rfl, rfl⟩ | ⟨rfl, rfl⟩
    · rw [min_eq_left hle, max_eq_right hle]
      exact ⟨this.2.2.1, this.2.2.2, this.1, this.2.1⟩
    · rw [min_eq_right hle, max_eq_left hle, min_comm, max_comm]
      exact ⟨this.2.2.1, this.2.2.2, this.1, this.2.1⟩

/-- C18: every pixel `(x, y)` that `DrawLine` attempts to write has
`min(x0, x1) <= x <= max(x0, x1)` and `min(y0, y1) <= y <= max(y0, y1)`; so when
both endpoints are inside the 400x400 canvas every write passes the bounds test of
`PutPixel`. -/
theorem DrawLine_writes_in_box (p0 p1 : Point) :
    ∃ ws, DrawLineWrites p0 p1 = some ws ∧
      (∀ p ∈ ws, min p0.x p1.x ≤ p.x ∧ p.x ≤ max p0.x p1.x ∧
        min p0.y p1.y ≤ p.y ∧ p.y ≤ max p0.y p1.y) ∧
      ((0 ≤ p0.x ∧ p0.x < 400 ∧ 0 ≤ p0.y ∧ p0.y < 400) →
        (0 ≤ p1.x ∧ p1.x < 400 ∧ 0 ≤ p1.y ∧ p1.y < 400) →
        ∀ p ∈ ws, 0 ≤ p.x ∧ p.x < 400 ∧ 0 ≤ p.y ∧ p.y < 400) := by
  obtain ⟨ws, hw, hbox⟩ := DrawLineWrites_box p0 p1
  refine ⟨ws, hw, hbox, ?_⟩
  intro h0 h1 p hp
  have := hbox p hp
  omega

/-! ## The endpoints of a line -/

/-- The first integer of `intRange a b`. -/
theorem intRange_head (a b : Int) (h : a ≤ b) : (intRange a b).head? = some a := by
  obtain ⟨n, hn⟩ : ∃ n : Nat, (b + 1 - a).toNat = n + 1 := ⟨(b - a).toNat, by omega⟩
  rw [intRange, hn, List.range_succ_eq_map]
  simp

/-- The last integer of `intRange a b`. -/
theorem intRange_getLast (a b : Int) (h : a ≤ b) : (intRange a b).getLast? = some b := by
  obtain ⟨n, hn⟩ : ∃ n : Nat, (b + 1 - a).toNat = n + 1 := ⟨(b - a).toNat, by omega⟩
  rw [intRange, hn, List.range_succ, List.map_append, List.map_singleton, List.getLast?_concat]
  congr 1
  omega

/-- The x-major branch writes its start point first and its end point last. -/
theorem drawXMajor_ends (x0 y0 x1 y1 : Int) (h : x0 < x1) :
    ∃ ws, drawXMajor x0 y0 x1 y1 = some ws ∧ ws.head? = some ⟨x0, y0⟩ ∧
      ws.getLast? = some ⟨x1, y1⟩ := by
  refine ⟨_, drawXMajor_eq x0 y0 x1 y1 (le_of_lt h), ?_, ?_⟩
  · rw [List.head?_map, intRange_head x0 x1 (le_of_lt h), Option.map_some']
    simp only [sub_self, zero_mul, zero_div, add_zero, cround_intCast]
  · rw [List.getLast?_map, intRange_getLast x0 x1 (le_of_lt h), Option.map_some']
    have hne : (x1 : ℚ) - (x0 : ℚ) ≠ 0 := by
      have : (x0 : ℚ) < (x1 : ℚ) := by exact_mod_cast h
      linarith
    have hv : (y0 : ℚ) + ((x1 : ℚ) - (x0 : ℚ)) * ((y1 : ℚ) - (y0 : ℚ)) / ((x1 : ℚ) - (x0 : ℚ)) =
        (y1 : ℚ) := by
      field_simp
    rw [hv, cround_intCast]

/-- The y-major branch writes its start point first and its end point last. -/
theorem drawYMajor_ends (x0 y0 x1 y1 : Int) (h : y0 ≤ y1) (hdeg : y0 = y1 → x0 = x1) :
    ∃ ws, drawYMajor x0 y0 x1 y1 = some ws ∧ ws.head? = some ⟨x0, y0⟩ ∧
      ws.getLast? = some ⟨x1, y1⟩ := by
  refine ⟨_, drawYMajor_eq x0 y0 x1 y1 h, ?_, ?_⟩
  · rw [List.head?_map, intRange_head y0 y1 h, Option.map_some']
    simp only [sub_self, zero_mul, zero_div, add_zero, cround_intCast]
  · rw [List.getLast?_map, intRange_getLast y0 y1 h, Option.map_some']
    by_cases he : y0 = y1
    · have hx := hdeg he
      subst he hx
      simp only [sub_self, zero_mul, zero_div, add_zero, cround_intCast]
    · have hne : (y1 : ℚ) - (y0 : ℚ) ≠ 0 := by
        have : (y0 : ℚ) < (y1 : ℚ) := by exact_mod_cast lt_of_le_of_ne h he
        linarith
      have hv : (x0 : ℚ) + ((y1 : ℚ) - (y0 : ℚ)) * ((x1 : ℚ) - (x0 : ℚ)) /
          ((y1 : ℚ) - (y0 : ℚ)) = (x1 : ℚ) := by
        field_simp
      rw [hv, cround_intCast]

/-- The first and the last write of a line are its two endpoints. -/
theorem DrawLineWrites_ends (p0 p1 : Point) :
    ∃ ws, DrawLineWrites p0 p1 = some ws ∧
      ((ws.head? = some p0 ∧ ws.getLast? = some p1) ∨
        (ws.head? = some p1 ∧ ws.getLast? = some p0)) := by
  obtain ⟨a, b, hab, hX | hY⟩ := DrawLineWrites_branch p0 p1
  · obtain ⟨_, hlt, _, hw⟩ := hX
    obtain ⟨ws, h1, h2, h3⟩ := drawXMajor_ends a.x a.y b.x b.y hlt
    refine ⟨ws, by rw [hw, h1], ?_⟩
    rcases hab with ⟨rfl, rfl⟩ | ⟨rfl, rfl⟩
    · exact Or.inl ⟨h2, h3⟩
    · exact Or.inr ⟨h2, h3⟩
  · obtain ⟨_, hle, hdx, hw⟩ := hY
    have hdeg : a.y = b.y → a.x = b.x := by
      intro he
      rw [he, sub_self] at hdx
      have := abs_eq_zero.mp (le_antisymm hdx (abs_nonneg _))
      omega
    obtain ⟨ws, h1, h2, h3⟩ := drawYMajor_ends a.x a.y b.x b.y hle hdeg
    refine ⟨ws, by rw [hw, h1], ?_⟩
    rcases hab with ⟨rfl, rfl⟩ | ⟨rfl, rfl⟩
    · exact Or.inl ⟨h2, h3⟩
    · exact Or.inr ⟨h2, h3⟩

/-- C19: when both endpoints lie inside the canvas, after `DrawLine(p0, p1, col)` the
cells of `p0` and of `p1` hold `col`; the first and the last pixel written are the
two endpoints. -/
theorem DrawLine_endpoints (p0 p1 : Point) (col : Color) (canvas : FrameBuffer)
    (h0 : 0 ≤ p0.x ∧ p0.x < 400 ∧ 0 ≤ p0.y ∧ p0.y < 400)
    (h1 : 0 ≤ p1.x ∧ p1.x < 400 ∧ 0 ≤ p1.y ∧ p1.y < 400) :
    ∃ ws cv, DrawLineWrites p0 p1 = some ws ∧ DrawLine p0 p1 col canvas = some cv ∧
      ((ws.head? = some p0 ∧ ws.getLast? = some p1) ∨
        (ws.head? = some p1 ∧ ws.getLast? = some p0)) ∧
      ∃ i0 i1 : Fin (Cw * Ch), (i0 : Int) = p0.y * 400 + p0.x ∧
        (i1 : Int) = p1.y * 400 + p1.x ∧ cv i0 = col ∧ cv i1 = col := by
  obtain ⟨ws, hw, hends⟩ := DrawLineWrites_ends p0 p1
  have hm0 : p0 ∈ ws := by
    rcases hends with ⟨h, _⟩ | ⟨_, h⟩
    · exact List.mem_of_mem_head? h
    · exact List.mem_of_mem_getLast? h
  have hm1 : p1 ∈ ws := by
    rcases hends with ⟨_, h⟩ | ⟨h, _⟩
    · exact List.mem_of_mem_getLast? h
    · exact List.mem_of_mem_head? h
  have hb0 : (p0.y * 400 + p0.x).toNat < Cw * Ch := by
    simp only [Cw, Ch]
    omega
  have hb1 : (p1.y * 400 + p1.x).toNat < Cw * Ch := by
    simp only [Cw, Ch]
    omega
  have e0 : ((⟨(p0.y * 400 + p0.x).toNat, hb0⟩ : Fin (Cw * Ch)) : Int) = p0.y * 400 + p0.x := by
    simp only
    omega
  have e1 : ((⟨(p1.y * 400 + p1.x).toNat, hb1⟩ : Fin (Cw * Ch)) : Int) = p1.y * 400 + p1.x := by
    simp only
    omega
  refine ⟨ws, putPixels col ws canvas, hw, by rw [DrawLine, hw, Option.map_some'], hends,
    ⟨_, hb0⟩, ⟨_, hb1⟩, e0, e1, ?_, ?_⟩
  · exact putPixels_hit col ws canvas _ ⟨p0, hm0, h0.1, h0.2.1, h0.2.2.1, h0.2.2.2, e0⟩
  · exact putPixels_hit col ws canvas _ ⟨p1, hm1, h1.1, h1.2.1, h1.2.2.1, h1.2.2.2, e1⟩

/-- C19 at the line from `(0,0)` to `(2,1)` drawn in red on the white canvas. -/
theorem DrawLine_endpoints_witness :
    ((0 : Int) ≤ 0 ∧ (0 : Int) < 400 ∧ (0 : Int) ≤ 0 ∧ (0 : Int) < 400) ∧
    ((0 : Int) ≤ 2 ∧ (2 : Int) < 400 ∧ (0 : Int) ≤ 1 ∧ (1 : Int) < 400) ∧
    ∃ ws cv, DrawLineWrites ⟨0, 0⟩ ⟨2, 1⟩ = some ws ∧
      DrawLine ⟨0, 0⟩ ⟨2, 1⟩ red Canvas = some cv ∧
      ((ws.head? = some ⟨0, 0⟩ ∧ ws.getLast? = some ⟨2, 1⟩) ∨
        (ws.head? = some ⟨2, 1⟩ ∧ ws.getLast? = some ⟨0, 0⟩)) ∧
      ∃ i0 i1 : Fin (Cw * Ch), (i0 : Int) = (0 : Int) * 400 + 0 ∧
        (i1 : Int) = (1 : Int) * 400 + 2 ∧ cv i0 = red ∧ cv i1 = red :=
  ⟨by decide, by decide,
    DrawLine_endpoints ⟨0, 0⟩ ⟨2, 1⟩ red Canvas (by decide) (by decide)⟩

/-! ## Connectedness of a line -/

/-- Two values less than one apart round to integers at most one apart. -/
theorem cround_step (v s : ℚ) (hs : |s| < 1) : |cround (v + s) - cround v| ≤ 1 := by
  have h1 := (cround_spec (v + s)).1
  have h0 := (cround_spec v).1
  rw [abs_le] at h1 h0
  rw [abs_lt] at hs
  have hlt : ((cround (v + s) - cround v : Int) : ℚ) < 2 := by
    push_cast
    linarith [h1.1, h1.2, h0.1, h0.2, hs.1, hs.2]
  have hgt : (-2 : ℚ) < ((cround (v + s) - cround v : Int) : ℚ) := by
    push_cast
    linarith [h1.1, h1.2, h0.1, h0.2, hs.1, hs.2]
  have hlt2 : cround (v + s) - cround v < 2 := by exact_mod_cast hlt
  have hgt2 : -2 < cround (v + s) - cround v := by exact_mod_cast hgt
  rw [abs_le]
  omega

/-- A relation that holds between the images of `k` and `k + 1` chains the image of
`intRange`. -/
theorem chain_map_intRange (R : Point → Point → Prop) (f : Int → Point) (a b : Int)
    (h : ∀ k : Int, a ≤ k → k < b → R (f k) (f (k + 1))) :
    ((intRange a b).map f).Chain' R := by
  by_cases hab : a ≤ b
  · obtain ⟨n, hn⟩ : ∃ n : Nat, (b + 1 - a).toNat = n + 1 := ⟨(b - a).toNat, by omega⟩
    rw [intRange, hn, List.map_map, List.chain'_map, List.chain'_range_succ]
    intro m hm
    have := h (a + (m : Int)) (by omega) (by omega)
    simp only [Function.comp_apply, Nat.succ_eq_add_one, Nat.cast_add, Nat.cast_one]
    rw [← add_assoc]
    exact this
  · have h0 : (b + 1 - a).toNat = 0 := by omega
    rw [intRange, h0]
    exact List.chain'_nil

/-- Consecutive writes of the x-major branch, when `|dy| < dx`. -/
theorem drawXMajor_chain (x0 y0 x1 y1 : Int) (h : x0 < x1) (hs : |y1 - y0| < x1 - x0) :
    ∃ ws, drawXMajor x0 y0 x1 y1 = some ws ∧
      ws.Chain' (fun p q => q.x = p.x + 1 ∧ |q.y - p.y| ≤ 1) := by
  refine ⟨_, drawXMajor_eq x0 y0 x1 y1 (le_of_lt h), ?_⟩
  apply chain_map_intRange
  intro k _ _
  refine ⟨rfl, ?_⟩
  have hpos : (0 : ℚ) < (x1 : ℚ) - (x0 : ℚ) := by
    have : (x0 : ℚ) < (x1 : ℚ) := by exact_mod_cast h
    linarith
  have hsq : |((y1 : ℚ) - (y0 : ℚ)) / ((x1 : ℚ) - (x0 : ℚ))| < 1 := by
    rw [abs_div, abs_of_pos hpos, div_lt_one hpos]
    have : ((|y1 - y0| : Int) : ℚ) < ((x1 - x0 : Int) : ℚ) := by exact_mod_cast hs
    push_cast at this
    exact this
  have hv : (y0 : ℚ) + (((k + 1 : Int) : ℚ) - (x0 : ℚ)) * ((y1 : ℚ) - (y0 : ℚ)) /
      ((x1 : ℚ) - (x0 : ℚ)) =
      ((y0 : ℚ) + ((k : ℚ) - (x0 : ℚ)) * ((y1 : ℚ) - (y0 : ℚ)) / ((x1 : ℚ) - (x0 : ℚ))) +
        ((y1 : ℚ) - (y0 : ℚ)) / ((x1 : ℚ) - (x0 : ℚ)) := by
    push_cast
    ring
  simp only
  rw [hv]
  exact cround_step _ _ hsq

/-- Consecutive writes of the y-major branch, when `|dx| <= dy`. -/
theorem drawYMajor_chain (x0 y0 x1 y1 : Int) (h : y0 ≤ y1) (hs : |x1 - x0| ≤ y1 - y0) :
    ∃ ws, drawYMajor x0 y0 x1 y1 = some ws ∧
      ws.Chain' (fun p q => q.y = p.y + 1 ∧ |q.x - p.x| ≤ 1) := by
  by_cases htie : |x1 - x0| = y1 - y0
  · obtain ⟨s, hs1, hd⟩ : ∃ s : Int, (s = 1 ∨ s = -1) ∧ x1 - x0 = s * (y1 - y0) := by
      rcases abs_choice (x1 - x0) with he | he
      · exact ⟨1, Or.inl rfl, by omega⟩
      · exact ⟨-1, Or.inr rfl, by omega⟩
    refine ⟨_, drawYMajor_diagonal x0 y0 x1 y1 s h hd, ?_⟩
    apply chain_map_intRange
    intro k _ _
    refine ⟨rfl, ?_⟩
    simp only
    rw [abs_le]
    rcases hs1 with rfl | rfl <;> omega
  · have hlt : |x1 - x0| < y1 - y0 := lt_of_le_of_ne hs htie
    have hy : y0 < y1 := by
      have := abs_nonneg (x1 - x0)
      omega
    refine ⟨_, drawYMajor_eq x0 y0 x1 y1 h, ?_⟩
    apply chain_map_intRange
    intro k _ _
    refine ⟨rfl, ?_⟩
    have hpos : (0 : ℚ) < (y1 : ℚ) - (y0 : ℚ) := by
      have : (y0 : ℚ) < (y1 : ℚ) := by exact_mod_cast hy
      linarith
    have hsq : |((x1 : ℚ) - (x0 : ℚ)) / ((y1 : ℚ) - (y0 : ℚ))| < 1 := by
      rw [abs_div, abs_of_pos hpos, div_lt_one hpos]
      have : ((|x1 - x0| : Int) : ℚ) < ((y1 - y0 : Int) : ℚ) := by exact_mod_cast hlt
      push_cast at this
      exact this
    have hv : (x0 : ℚ) + (((k + 1 : Int) : ℚ) - (y0 : ℚ)) * ((x1 : ℚ) - (x0 : ℚ)) /
        ((y1 : ℚ) - (y0 : ℚ)) =
        ((x0 : ℚ) + ((k : ℚ) - (y0 : ℚ)) * ((x1 : ℚ) - (x0 : ℚ)) / ((y1 : ℚ) - (y0 : ℚ))) +
          ((x1 : ℚ) - (x0 : ℚ)) / ((y1 : ℚ) - (y0 : ℚ)) := by
      push_cast
      ring
    simp only
    rw [hv]
    exact cround_step _ _ hsq

/-- C17: consecutive pixel writes of `DrawLine` differ by exactly 1 in the dominant
coordinate (x when `|dx| > |dy|`, y otherwise) and by at most 1 in the other one:
the rasterised line is 8-connected. -/
theorem DrawLine_connected (p0 p1 : Point) :
    ∃ ws, DrawLineWrites p0 p1 = some ws ∧
      ws.Chain' (fun p q =>
        if |p1.x - p0.x| > |p1.y - p0.y| then q.x = p.x + 1 ∧ |q.y - p.y| ≤ 1
        else q.y = p.y + 1 ∧ |q.x - p.x| ≤ 1) := by
  obtain ⟨a, b, _, hX | hY⟩ := DrawLineWrites_branch p0 p1
  · obtain ⟨hgt, hlt, hs, hw⟩ := hX
    obtain ⟨ws, h1, h2⟩ := drawXMajor_chain a.x a.y b.x b.y hlt hs
    refine ⟨ws, by rw [hw, h1], h2.imp ?_⟩
    intro p q hpq
    rw [if_pos hgt]
    exact hpq
  · obtain ⟨hgt, hle, hs, hw⟩ := hY
    obtain ⟨ws, h1, h2⟩ := drawYMajor_chain a.x a.y b.x b.y hle hs
    refine ⟨ws, by rw [hw, h1], h2.imp ?_⟩
    intro p q hpq
    rw [if_neg hgt]
    exact hpq

/-! ## The rasteriser of the specification -/

/-- Lists of writes with the same pixels have the same effect on the buffer. -/
theorem putPixels_congr (col : Color) (w1 w2 : List Point) (canvas : FrameBuffer)
    (h : ∀ p, p ∈ w1 ↔ p ∈ w2) : putPixels col w1 canvas = putPixels col w2 canvas := by
  funext i
  by_cases hh : ∃ p ∈ w1, hits p i
  · have hh2 : ∃ p ∈ w2, hits p i := by
      obtain ⟨p, hp, hpi⟩ := hh
      exact ⟨p, (h p).mp hp, hpi⟩
    rw [putPixels_hit col w1 canvas i hh, putPixels_hit col w2 canvas i hh2]
  · have m1 : ∀ p ∈ w1, ¬ hits p i := fun p hp hpi => hh ⟨p, hp, hpi⟩
    have m2 : ∀ p ∈ w2, ¬ hits p i := fun p hp hpi => hh ⟨p, (h p).mpr hp, hpi⟩
    rw [putPixels_miss col w1 canvas i m1, putPixels_miss col w2 canvas i m2]

/-- On an exact diagonal, `y1 - y0 = s * (x1 - x0)`, the x-major branch writes the
lattice points of the diagonal. -/
theorem drawXMajor_diagonal (x0 y0 x1 y1 s : Int) (hx : x0 ≤ x1)
    (hd : y1 - y0 = s * (x1 - x0)) :
    drawXMajor x0 y0 x1 y1 =
      some ((intRange x0 x1).map fun (x : Int) => (⟨x, y0 + s * (x - x0)⟩ : Point)) := by
  rw [drawXMajor_eq x0 y0 x1 y1 hx]
  congr 1
  apply List.map_congr_left
  intro x hmem
  rw [mem_intRange] at hmem
  have hq : (y0 : ℚ) + ((x : ℚ) - (x0 : ℚ)) * ((y1 : ℚ) - (y0 : ℚ)) / ((x1 : ℚ) - (x0 : ℚ)) =
      ((y0 + s * (x - x0) : Int) : ℚ) := by
    have hdq : (y1 : ℚ) - (y0 : ℚ) = (s : ℚ) * ((x1 : ℚ) - (x0 : ℚ)) := by exact_mod_cast hd
    by_cases he : x1 = x0
    · have hxx : x = x0 := by omega
      subst he hxx
      simp
    · have hne : (x1 : ℚ) - (x0 : ℚ) ≠ 0 := by
        intro hc
        apply he
        exact_mod_cast sub_eq_zero.mp hc
      rw [hdq]
      push_cast
      field_simp
      ring
  rw [hq, cround_intCast]

/-- For ordered endpoints with `a.x < b.x` the specification's x-major case is the
x-major branch of `DrawLine`. -/
theorem specXMajor_eq (a b : Point) (h : a.x < b.x) :
    drawXMajor a.x a.y b.x b.y = some (specXMajor a b) := by
  rw [drawXMajor_eq a.x a.y b.x b.y (le_of_lt h), specXMajor]
  simp only [specInterpolate, if_neg (ne_of_lt h)]

/-- For ordered endpoints with `a.y < b.y` the specification's y-major case is the
y-major branch of `DrawLine`. -/
theorem specYMajor_eq (a b : Point) (h : a.y < b.y) :
    drawYMajor a.x a.y b.x b.y = some (specYMajor a b) := by
  rw [drawYMajor_eq a.x a.y b.x b.y (le_of_lt h), specYMajor]
  simp only [specInterpolate, if_neg (ne_of_lt h)]

/-- The two orientations of an exact diagonal list the same lattice points. -/
theorem diagonal_mem_iff (a b c e : Point) (s t : Int) (hs : s = 1 ∨ s = -1)
    (ht : t = 1 ∨ t = -1) (hX : b.y - a.y = s * (b.x - a.x)) (hY : e.x - c.x = t * (e.y - c.y))
    (hab : (a = c ∧ b = e) ∨ (a = e ∧ b = c)) (hx : a.x < b.x) (hy : c.y ≤ e.y) (p : Point) :
    p ∈ (intRange a.x b.x).map (fun (x : Int) => (⟨x, a.y + s * (x - a.x)⟩ : Point)) ↔
      p ∈ (intRange c.y e.y).map (fun (y : Int) => (⟨c.x + t * (y - c.y), y⟩ : Point)) := by
  simp only [List.mem_map, mem_intRange]
  constructor
  · rintro ⟨x, hxr, rfl⟩
    refine ⟨a.y + s * (x - a.x), ?_, ?_⟩
    · rcases hab with ⟨rfl, rfl⟩ | ⟨rfl, rfl⟩ <;> rcases hs with rfl | rfl <;>
        rcases ht with rfl | rfl <;> constructor <;> omega
    · rw [Point.mk.injEq]
      rcases hab with ⟨rfl, rfl⟩ | ⟨rfl, rfl⟩ <;> rcases hs with rfl | rfl <;>
        rcases ht with rfl | rfl <;> constructor <;> omega
  · rintro ⟨y, hyr, rfl⟩
    refine ⟨c.x + t * (y - c.y), ?_, ?_⟩
    · rcases hab with ⟨rfl, rfl⟩ | ⟨rfl, rfl⟩ <;> rcases hs with rfl | rfl <;>
        rcases ht with rfl | rfl <;> constructor <;> omega
    · rw [Point.mk.injEq]
      rcases hab with ⟨rfl, rfl⟩ | ⟨rfl, rfl⟩ <;> rcases hs with rfl | rfl <;>
        rcases ht with rfl | rfl <;> constructor <;> omega

/-- On a tie `|dx| = |dy|` with distinct endpoints, the y-major branch of `DrawLine`
and the specification's x-major case write the same pixels. -/
theorem tie_mem (a b c e : Point) (hab : (a = c ∧ b = e) ∨ (a = e ∧ b = c))
    (hx : a.x < b.x) (hy : c.y ≤ e.y) (htie : |b.x - a.x| = |b.y - a.y|) :
    ∃ ws, drawYMajor c.x c.y e.x e.y = some ws ∧ ∀ p, p ∈ ws ↔ p ∈ specXMajor a b := by
  obtain ⟨s, hs, hX⟩ : ∃ s : Int, (s = 1 ∨ s = -1) ∧ b.y - a.y = s * (b.x - a.x) := by
    rcases abs_eq_abs.mp htie with he | he
    · exact ⟨1, Or.inl rfl, by omega⟩
    · exact ⟨-1, Or.inr rfl, by omega⟩
  have hY : e.x - c.x = s * (e.y - c.y) := by
    rcases hab with ⟨rfl, rfl⟩ | ⟨rfl, rfl⟩ <;> rcases hs with rfl | rfl <;> omega
  have hspec : specXMajor a b =
      (intRange a.x b.x).map fun (x : Int) => (⟨x, a.y + s * (x - a.x)⟩ : Point) := by
    have h1 := specXMajor_eq a b hx
    rw [drawXMajor_diagonal a.x a.y b.x b.y s (le_of_lt hx) hX, Option.some.injEq] at h1
    exact h1.symm
  refine ⟨_, drawYMajor_diagonal c.x c.y e.x e.y s hy hY, ?_⟩
  intro p
  rw [hspec]
  exact (diagonal_mem_iff a b c e s s hs hs hX hY hab hx hy p).symm

/-- The writes of `DrawLine` and those of the specification's rasteriser: the same
pixels, and the same sequence unless `|dx| = |dy|`. -/
theorem DrawLineWrites_spec (p0 p1 : Point) :
    ∃ ws, DrawLineWrites p0 p1 = some ws ∧
      (∀ p, p ∈ ws ↔ p ∈ specDrawLineWrites p0 p1) ∧
      (|p1.x - p0.x| ≠ |p1.y - p0.y| → ws = specDrawLineWrites p0 p1) := by
  unfold DrawLineWrites specDrawLineWrites
  simp only
  by_cases hgt : |p1.x - p0.x| > |p1.y - p0.y|
  · rw [if_pos hgt, if_pos (le_of_lt hgt)]
    have hne : p1.x ≠ p0.x := by
      intro h0
      rw [h0, sub_self, abs_zero] at hgt
      exact absurd hgt (not_lt.mpr (abs_nonneg _))
    by_cases hswap : p0.x > p1.x
    · rw [if_pos hswap, if_neg (not_le.mpr hswap)]
      exact ⟨_, specXMajor_eq p1 p0 hswap, fun _ => Iff.rfl, fun _ => rfl⟩
    · rw [if_neg hswap, if_pos (le_of_not_gt hswap)]
      exact ⟨_, specXMajor_eq p0 p1 (by omega), fun _ => Iff.rfl, fun _ => rfl⟩
  · rw [if_neg hgt]
    by_cases htie : |p1.x - p0.x| = |p1.y - p0.y|
    · rw [if_pos (ge_of_eq htie)]
      by_cases hdx : p1.x = p0.x
      · have hdy : p1.y = p0.y := by
          rw [hdx, sub_self, abs_zero] at htie
          have := abs_eq_zero.mp htie.symm
          omega
        rw [if_neg (by omega), if_pos (by omega), hdx, hdy,
          drawYMajor_vertical p0.x p0.y p0.y (le_refl _)]
        refine ⟨_, rfl, ?_, fun hc => absurd (by rw [sub_self, sub_self]) hc⟩
        intro p
        simp [specXMajor, specInterpolate, hdx, hdy, intRange, List.range_succ, cround_intCast]
      · have htie1 : |p1.x - p0.x| = |p1.y - p0.y| := htie
        have htie2 : |p0.x - p1.x| = |p0.y - p1.y| := by
          rw [abs_sub_comm p0.x p1.x, abs_sub_comm p0.y p1.y]
          exact htie
        by_cases hswapy : p0.y > p1.y
        · rw [if_pos hswapy]
          by_cases hlex : p0.x ≤ p1.x
          · rw [if_pos hlex]
            obtain ⟨ws, h1, h2⟩ := tie_mem p0 p1 p1 p0 (Or.inr ⟨rfl, rfl⟩) (by omega)
              (le_of_lt hswapy) htie1
            exact ⟨ws, h1, h2, fun hc => absurd htie hc⟩
          · rw [if_neg hlex]
            obtain ⟨ws, h1, h2⟩ := tie_mem p1 p0 p1 p0 (Or.inl ⟨rfl, rfl⟩) (by omega)
              (le_of_lt hswapy) htie2
            exact ⟨ws, h1, h2, fun hc => absurd htie hc⟩
        · rw [if_neg hswapy]
          by_cases hlex : p0.x ≤ p1.x
          · rw [if_pos hlex]
            obtain ⟨ws, h1, h2⟩ := tie_mem p0 p1 p0 p1 (Or.inl ⟨rfl, rfl⟩) (by omega)
              (le_of_not_gt hswapy) htie1
            exact ⟨ws, h1, h2, fun hc => absurd htie hc⟩
          · rw [if_neg hlex]
            obtain ⟨ws, h1, h2⟩ := tie_mem p1 p0 p0 p1 (Or.inr ⟨rfl, rfl⟩) (by omega)
              (le_of_not_gt hswapy) htie2
            exact ⟨ws, h1, h2, fun hc => absurd htie hc⟩
    · have hlt : |p1.x - p0.x| < |p1.y - p0.y| := lt_of_le_of_ne (le_of_not_gt hgt) htie
      rw [if_neg (not_le.mpr hlt)]
      have hne : p1.y ≠ p0.y := by
        intro h0
        rw [h0, sub_self, abs_zero] at hlt
        exact absurd hlt (not_lt.mpr (abs_nonneg _))
      by_cases hswap : p0.y > p1.y
      · rw [if_pos hswap, if_neg (not_le.mpr hswap)]
        exact ⟨_, specYMajor_eq p1 p0 hswap, fun _ => Iff.rfl, fun _ => rfl⟩
      · rw [if_neg hswap, if_pos (le_of_not_gt hswap)]
        exact ⟨_, specYMajor_eq p0 p1 (by omega), fun _ => Iff.rfl, fun _ => rfl⟩

/-- C15, amended: with arithmetic read as exact, the frame buffer `DrawLine` produces,
with its x-major branch taken only when `|dx| > |dy|`, is the one the specification's
rasteriser produces, with its x-major case taken when `|dx| >= |dy|`; the two write
the same pixels, in the same order unless `|dx| = |dy|`, where the order can differ,
as from `(0,2)` to `(2,0)`. -/
theorem DrawLine_refines_spec (p0 p1 : Point) (col : Color) (canvas : FrameBuffer) :
    DrawLine p0 p1 col canvas = some (specDrawLine p0 p1 col canvas) ∧
    (∃ ws, DrawLineWrites p0 p1 = some ws ∧
      (∀ p, p ∈ ws ↔ p ∈ specDrawLineWrites p0 p1) ∧
      (|p1.x - p0.x| ≠ |p1.y - p0.y| → ws = specDrawLineWrites p0 p1)) ∧
    (DrawLineWrites ⟨0, 2⟩ ⟨2, 0⟩ = some [⟨2, 0⟩, ⟨1, 1⟩, ⟨0, 2⟩] ∧
      specDrawLineWrites ⟨0, 2⟩ ⟨2, 0⟩ = [⟨0, 2⟩, ⟨1, 1⟩, ⟨2, 0⟩]) := by
  refine ⟨?_, DrawLineWrites_spec p0 p1, ?_, ?_⟩
  · obtain ⟨ws, hw, hmem, _⟩ := DrawLineWrites_spec p0 p1
    rw [DrawLine, hw, Option.map_some', specDrawLine, putPixels_congr col ws _ canvas hmem]
  · have h1 : DrawLineWrites ⟨0, 2⟩ ⟨2, 0⟩ = drawYMajor 2 0 0 2 := by
      simp [DrawLineWrites]
    rw [h1, drawYMajor_diagonal 2 0 0 2 (-1) (by decide) (by decide)]
    simp [intRange, Int.toNat, List.range_succ]
  · have h2 : specDrawLineWrites ⟨0, 2⟩ ⟨2, 0⟩ = specXMajor ⟨0, 2⟩ ⟨2, 0⟩ := by
      simp [specDrawLineWrites]
    have h3 := specXMajor_eq ⟨0, 2⟩ ⟨2, 0⟩ (by decide)
    rw [drawXMajor_diagonal 0 2 2 0 (-1) (by decide) (by decide), Option.some.injEq] at h3
    rw [h2, ← h3]
    simp [intRange, Int.toNat, List.range_succ]

/-! ## The rounding reading -/

/-- The integer `roundEven` returns: the nearest one, the even one on a tie. -/
theorem roundEven_eq (r : ℚ) (n : Int)
    (h : ((n : ℚ) - 1 / 2 < r ∧ r < (n : ℚ) + 1 / 2) ∨
      ((r = (n : ℚ) - 1 / 2 ∨ r = (n : ℚ) + 1 / 2) ∧ n % 2 = 0)) : roundEven r = n := by
  unfold roundEven
  rcases h with ⟨h1, h2⟩ | ⟨h1 | h1, h2⟩
  · by_cases hc : (n : ℚ) ≤ r
    · have hf : ⌊r⌋ = n := by
        rw [Int.floor_eq_iff]
        constructor <;> linarith
      rw [hf, if_pos (by linarith)]
    · have hf : ⌊r⌋ = n - 1 := by
        rw [Int.floor_eq_iff]
        push_cast
        constructor <;> linarith
      rw [hf]
      push_cast
      rw [if_neg (by linarith), if_pos (by linarith)]
      omega
  · have hf : ⌊r⌋ = n - 1 := by
      rw [Int.floor_eq_iff]
      push_cast
      constructor <;> linarith
    rw [hf]
    push_cast
    rw [if_neg (by linarith), if_neg (by linarith), if_neg (by omega)]
    omega
  · have hf : ⌊r⌋ = n := by
      rw [Int.floor_eq_iff]
      constructor <;> linarith
    rw [hf, if_neg (by linarith), if_neg (by linarith), if_pos h2]

/-- The binary exponent of a positive rational. -/
theorem log2_eq (q : ℚ) (e : Int) (h1 : (2 : ℚ) ^ e ≤ q) (h2 : q < (2 : ℚ) ^ (e + 1)) :
    Int.log 2 q = e := by
  have hpos : 0 < q := lt_of_lt_of_le (by positivity) h1
  have ha : e ≤ Int.log 2 q :=
    (Int.zpow_le_iff_le_log (by norm_num) hpos).mp (by exact_mod_cast h1)
  have hb : Int.log 2 q < e + 1 :=
    (Int.lt_zpow_iff_log_lt (by norm_num) hpos).mp (by exact_mod_cast h2)
  omega

/-- The value of `fl32` at `q`, from the exponent `e` of `q` and the integer `n`
nearest to `q / 2 ^ (e - 23)` (the even one on a tie). -/
theorem fl32_eval (q : ℚ) (e n : Int) (he : -126 ≤ e) (h1 : (2 : ℚ) ^ e ≤ |q|)
    (h2 : |q| < (2 : ℚ) ^ (e + 1))
    (hn : (((n : ℚ) - 1 / 2) * 2 ^ (e - 23) < q ∧ q < ((n : ℚ) + 1 / 2) * 2 ^ (e - 23)) ∨
      ((q = ((n : ℚ) - 1 / 2) * 2 ^ (e - 23) ∨ q = ((n : ℚ) + 1 / 2) * 2 ^ (e - 23)) ∧
        n % 2 = 0)) :
    fl32 q = (n : ℚ) * 2 ^ (e - 23) := by
  unfold fl32
  rw [log2_eq |q| e h1 h2, max_eq_left he]
  have hu : (0 : ℚ) < 2 ^ (e - 23) := by positivity
  rw [roundEven_eq (q / 2 ^ (e - 23)) n]
  rcases hn with ⟨a, b⟩ | ⟨a | a, b⟩
  · left
    exact ⟨(lt_div_iff₀ hu).mpr a, (div_lt_iff₀ hu).mpr b⟩
  · right
    exact ⟨Or.inl ((div_eq_iff (ne_of_gt hu)).mpr a), b⟩
  · right
    exact ⟨Or.inr ((div_eq_iff (ne_of_gt hu)).mpr a), b⟩

/-- The value of `fl32` at a positive `q` of exponent `e`. -/
theorem fl32_eval_pos (q : ℚ) (e n : Int) (he : -126 ≤ e) (h1 : (2 : ℚ) ^ e ≤ q)
    (h2 : q < (2 : ℚ) ^ (e + 1))
    (hn : (((n : ℚ) - 1 / 2) * 2 ^ (e - 23) < q ∧ q < ((n : ℚ) + 1 / 2) * 2 ^ (e - 23)) ∨
      ((q = ((n : ℚ) - 1 / 2) * 2 ^ (e - 23) ∨ q = ((n : ℚ) + 1 / 2) * 2 ^ (e - 23)) ∧
        n % 2 = 0)) :
    fl32 q = (n : ℚ) * 2 ^ (e - 23) := by
  have hpos : 0 < q := lt_of_lt_of_le (by positivity) h1
  exact fl32_eval q e n he (by rw [abs_of_pos hpos]; exact h1)
    (by rw [abs_of_pos hpos]; exact h2) hn

/-- The value of `fl32` at a negative `q` of exponent `e`. -/
theorem fl32_eval_neg (q : ℚ) (e n : Int) (he : -126 ≤ e) (h1 : (2 : ℚ) ^ e ≤ -q)
    (h2 : -q < (2 : ℚ) ^ (e + 1))
    (hn : (((n : ℚ) - 1 / 2) * 2 ^ (e - 23) < q ∧ q < ((n : ℚ) + 1 / 2) * 2 ^ (e - 23)) ∨
      ((q = ((n : ℚ) - 1 / 2) * 2 ^ (e - 23) ∨ q = ((n : ℚ) + 1 / 2) * 2 ^ (e - 23)) ∧
        n % 2 = 0)) :
    fl32 q = (n : ℚ) * 2 ^ (e - 23) := by
  have hneg : q < 0 := by
    have : (0 : ℚ) < -q := lt_of_lt_of_le (by positivity) h1
    linarith
  exact fl32_eval q e n he (by rw [abs_of_neg hneg]; exact h1)
    (by rw [abs_of_neg hneg]; exact h2) hn

/-- A multiple of the unit in the last place of its own exponent is a float. -/
theorem fl32_of_multiple (q : ℚ) (m : Int)
    (h : q = (m : ℚ) * 2 ^ (max (Int.log 2 |q|) (-126) - 23)) : fl32 q = q := by
  have hu : (0 : ℚ) < 2 ^ (max (Int.log 2 |q|) (-126) - 23) := by positivity
  have hr : roundEven (q / 2 ^ (max (Int.log 2 |q|) (-126) - 23)) = m := by
    apply roundEven_eq
    left
    have hq : q / 2 ^ (max (Int.log 2 |q|) (-126) - 23) = (m : ℚ) :=
      (div_eq_iff (ne_of_gt hu)).mpr h
    rw [hq]
    constructor <;> linarith
  unfold fl32
  rw [hr]
  exact h.symm

/-- Zero is a float. -/
theorem fl32_zero : fl32 0 = 0 := by
  apply fl32_of_multiple 0 0
  simp

/-- Every integer of magnitude at most `2 ^ 24` is a float. -/
theorem fl32_int (n : Int) (h : |n| ≤ 2 ^ 24) : fl32 (n : ℚ) = (n : ℚ) := by
  by_cases h0 : n = 0
  · subst h0
    simpa using fl32_zero
  have hpos : (0 : ℚ) < |(n : ℚ)| := abs_pos.mpr (by exact_mod_cast h0)
  have h1 : (1 : ℚ) ≤ |(n : ℚ)| := by
    have : (1 : Int) ≤ |n| := Int.one_le_abs h0
    exact_mod_cast this
  have h24 : |(n : ℚ)| ≤ 2 ^ (24 : ℤ) := by
    have : ((|n| : Int) : ℚ) ≤ ((2 ^ 24 : Int) : ℚ) := by exact_mod_cast h
    rw [Int.cast_abs] at this
    norm_num at this ⊢
    exact this
  have hlo : 0 ≤ Int.log 2 |(n : ℚ)| :=
    (Int.zpow_le_iff_le_log (by norm_num) hpos).mp (by simpa using h1)
  have hhi : Int.log 2 |(n : ℚ)| < 25 :=
    (Int.lt_zpow_iff_log_lt (by norm_num) hpos).mp
      (lt_of_le_of_lt h24 (by norm_num))
  have hmax : max (Int.log 2 |(n : ℚ)|) (-126) = Int.log 2 |(n : ℚ)| :=
    max_eq_left (by omega)
  by_cases h23 : Int.log 2 |(n : ℚ)| ≤ 23
  · obtain ⟨k, hk⟩ : ∃ k : Nat, Int.log 2 |(n : ℚ)| - 23 = -(k : Int) :=
      ⟨(23 - Int.log 2 |(n : ℚ)|).toNat, by omega⟩
    apply fl32_of_multiple (n : ℚ) (n * 2 ^ k)
    rw [hmax, hk, zpow_neg, zpow_natCast]
    push_cast
    field_simp
  · have hE : Int.log 2 |(n : ℚ)| = 24 := by omega
    have hge : (2 : ℚ) ^ (24 : ℤ) ≤ |(n : ℚ)| := by
      have := Int.zpow_log_le_self (b := 2) (by norm_num) hpos
      rw [hE] at this
      exact_mod_cast this
    have habs : |(n : ℚ)| = 2 ^ (24 : ℤ) := le_antisymm h24 hge
    have hn : n = 2 ^ 24 ∨ n = -2 ^ 24 := by
      have : |n| = 2 ^ 24 := by
        have h2 : ((|n| : Int) : ℚ) = ((2 ^ 24 : Int) : ℚ) := by
          rw [Int.cast_abs, habs]
          norm_num
        exact_mod_cast h2
      rcases abs_eq (by norm_num : (0 : Int) ≤ 2 ^ 24) |>.mp this with h3 | h3
      · exact Or.inl h3
      · exact Or.inr h3
    rcases hn with rfl | rfl
    · apply fl32_of_multiple _ (2 ^ 23)
      rw [hmax, hE]
      norm_num
    · apply fl32_of_multiple _ (-2 ^ 23)
      rw [hmax, hE]
      norm_num

/-- With no rounding the loop of the rounding reading is the exact loop. -/
theorem interpolateLoopFl_id (step : ℚ) (n : Nat) (val : ℚ) (values : List ℚ) :
    interpolateLoopFl id step n val values = interpolateLoop step n val values := by
  induction n generalizing val values with
  | zero => rfl
  | succ n ih => rw [interpolateLoopFl, interpolateLoop, id, ih]

/-- With no rounding `InterpolateFl` is `Interpolate`. -/
theorem InterpolateFl_id (i0 i1 : Int) (d0 d1 : ℚ) :
    InterpolateFl id i0 d0 i1 d1 = Interpolate i0 d0 i1 d1 := by
  unfold InterpolateFl Interpolate
  simp only [id, interpolateLoopFl_id]

/-- With no rounding the writes of the rounding reading are those of the exact
reading. -/
theorem DrawLineWritesFl_id (p0 p1 : Point) :
    DrawLineWritesFl id p0 p1 = DrawLineWrites p0 p1 := by
  unfold DrawLineWritesFl DrawLineWrites drawXMajorFl drawYMajorFl drawXMajor drawYMajor
  simp only [id, InterpolateFl_id]

/-- With no rounding `ViewportToCanvasFl` is `ViewportToCanvas`. -/
theorem ViewportToCanvasFl_id (x y : ℚ) : ViewportToCanvasFl id x y = ViewportToCanvas x y := rfl

/-- With no rounding `ProjectVertexFl` is `ProjectVertex`. -/
theorem ProjectVertexFl_id (v : Vertex) : ProjectVertexFl id v = ProjectVertex v := rfl

/-! ## Lines in the rounding reading -/

/-- The loop of `InterpolateFl` appends one value for each iteration. -/
theorem interpolateLoopFl_length (fl : ℚ → ℚ) (step : ℚ) (n : Nat) (val : ℚ)
    (values : List ℚ) :
    (interpolateLoopFl fl step n val values).length = values.length + n := by
  induction n generalizing val values with
  | zero => rfl
  | succ n ih =>
    rw [interpolateLoopFl, ih, List.length_append, List.length_singleton]
    omega

/-- The number of values `InterpolateFl` returns when `i0 <= i1`. -/
theorem InterpolateFl_length (fl : ℚ → ℚ) (i0 i1 : Int) (d0 d1 : ℚ) (h : i0 ≤ i1) :
    (InterpolateFl fl i0 d0 i1 d1).length = (i1 + 1 - i0).toNat := by
  unfold InterpolateFl
  by_cases he : i0 = i1
  · subst he
    simp
  · rw [if_neg he]
    simp only [interpolateLoopFl_length, List.length_nil, zero_add]

/-- The writes of the x-major branch in the rounding reading, for `x0 <= x1`: the
pixels `(x, round(ys[x - x0]))` for `x` ascending, where `ys` is the result of
`Interpolate`. -/
theorem drawXMajorFl_eq (fl : ℚ → ℚ) (x0 y0 x1 y1 : Int) (h : x0 ≤ x1) :
    drawXMajorFl fl x0 y0 x1 y1 =
      some ((intRange x0 x1).map fun (x : Int) =>
        (⟨x, cround ((InterpolateFl fl x0 (fl (y0 : ℚ)) x1 (fl (y1 : ℚ))).getD
          (x - x0).toNat 0)⟩ : Point)) := by
  unfold drawXMajorFl intRange
  rw [List.map_map]
  refine lineLoopX_eq _ x0
    (fun (x : Int) => (InterpolateFl fl x0 (fl (y0 : ℚ)) x1 (fl (y1 : ℚ))).getD
      (x - x0).toNat 0) _ x0 ?_
  intro k hk
  exact vecAt_of_lt _ _ 0 (by omega) (by rw [InterpolateFl_length fl x0 x1 _ _ h]; omega)

/-- The writes of the y-major branch in the rounding reading, for `y0 <= y1`: the
pixels `(round(xs[y - y0]), y)` for `y` ascending, where `xs` is the result of
`Interpolate`. -/
theorem drawYMajorFl_eq (fl : ℚ → ℚ) (x0 y0 x1 y1 : Int) (h : y0 ≤ y1) :
    drawYMajorFl fl x0 y0 x1 y1 =
      some ((intRange y0 y1).map fun (y : Int) =>
        (⟨cround ((InterpolateFl fl y0 (fl (x0 : ℚ)) y1 (fl (x1 : ℚ))).getD
          (y - y0).toNat 0), y⟩ : Point)) := by
  unfold drawYMajorFl intRange
  rw [List.map_map]
  refine lineLoopY_eq _ y0
    (fun (y : Int) => (InterpolateFl fl y0 (fl (x0 : ℚ)) y1 (fl (x1 : ℚ))).getD
      (y - y0).toNat 0) _ y0 ?_
  intro k hk
  exact vecAt_of_lt _ _ 0 (by omega) (by rw [InterpolateFl_length fl y0 y1 _ _ h]; omega)

/-- In binary32 `Interpolate(0, 1, 6, 0)` accumulates `0.49999994` at index 3, where
the exact value is `1/2`. -/
theorem InterpolateFl_0_1_6_0 :
    InterpolateFl fl32 0 1 6 0 =
      [1, 13981013 / 16777216, 5592405 / 8388608, 8388607 / 16777216, 1398101 / 4194304,
        11184805 / 67108864, -3 / 33554432] := by
  have c1 : fl32 (-1 : ℚ) = -1 := by simpa using fl32_int (-1) (by norm_num)
  have c6 : fl32 (6 : ℚ) = 6 := by simpa using fl32_int 6 (by norm_num)
  have hs : fl32 (-(1 / 6) : ℚ) = -(11184811 / 67108864) := by
    rw [fl32_eval_neg (-(1 / 6)) (-3) (-11184811) (by norm_num) (by norm_num) (by norm_num)
      (by norm_num)]
    norm_num
  have h0 : fl32 (55924053 / 67108864 : ℚ) = 13981013 / 16777216 := by
    rw [fl32_eval_pos (55924053 / 67108864) (-1) (13981013) (by norm_num) (by norm_num) (by norm_num)
      (by norm_num)]
    norm_num
  have h1 : fl32 (44739241 / 67108864 : ℚ) = 5592405 / 8388608 := by
    rw [fl32_eval_pos (44739241 / 67108864) (-1) (11184810) (by norm_num) (by norm_num) (by norm_num)
      (by norm_num)]
    norm_num
  have h2 : fl32 (33554429 / 67108864 : ℚ) = 8388607 / 16777216 := by
    rw [fl32_eval_pos (33554429 / 67108864) (-2) (16777214) (by norm_num) (by norm_num) (by norm_num)
      (by norm_num)]
    norm_num
  have h3 : fl32 (22369617 / 67108864 : ℚ) = 1398101 / 4194304 := by
    rw [fl32_eval_pos (22369617 / 67108864) (-2) (11184808) (by norm_num) (by norm_num) (by norm_num)
      (by norm_num)]
    norm_num
  have h4 : fl32 (11184805 / 67108864 : ℚ) = 11184805 / 67108864 := by
    rw [fl32_eval_pos (11184805 / 67108864) (-3) (11184805) (by norm_num) (by norm_num) (by norm_num)
      (by norm_num)]
    norm_num
  have h5 : fl32 (-(3 / 33554432) : ℚ) = -(3 / 33554432) := by
    rw [fl32_eval_neg (-(3 / 33554432)) (-24) (-12582912) (by norm_num) (by norm_num) (by norm_num)
      (by norm_num)]
    norm_num
  simp only [InterpolateFl, interpolateLoopFl]
  norm_num [Int.toNat, interpolateLoopFl, c1, c6, hs, h0, h1, h2, h3, h4, h5]


/-- In binary32 `Interpolate(0, 0, 2, 1)` is `[0, 1/2, 1]`, as in exact arithmetic. -/
theorem InterpolateFl_0_0_2_1 : InterpolateFl fl32 0 0 2 1 = [0, 1 / 2, 1] := by
  have c1 : fl32 (1 : ℚ) = 1 := by simpa using fl32_int 1 (by norm_num)
  have c2 : fl32 (2 : ℚ) = 2 := by simpa using fl32_int 2 (by norm_num)
  have q12 : fl32 (1 / 2 : ℚ) = 1 / 2 := by
    rw [fl32_eval_pos (1 / 2) (-1) (8388608) (by norm_num) (by norm_num) (by norm_num)
      (by norm_num)]
    norm_num
  simp only [InterpolateFl, interpolateLoopFl]
  norm_num [Int.toNat, interpolateLoopFl, c1, c2, q12]

/-- In binary32 the line from `(0,1)` to `(6,0)` writes `(3,0)`. -/
theorem DrawLineWritesFl_0_1_6_0 :
    DrawLineWritesFl fl32 ⟨0, 1⟩ ⟨6, 0⟩ =
      some [⟨0, 1⟩, ⟨1, 1⟩, ⟨2, 1⟩, ⟨3, 0⟩, ⟨4, 0⟩, ⟨5, 0⟩, ⟨6, 0⟩] := by
  have c1 : fl32 (1 : ℚ) = 1 := by simpa using fl32_int 1 (by norm_num)
  have h1 : DrawLineWritesFl fl32 ⟨0, 1⟩ ⟨6, 0⟩ = drawXMajorFl fl32 0 1 6 0 := by
    simp [DrawLineWritesFl]
  rw [h1, drawXMajorFl_eq fl32 0 1 6 0 (by decide)]
  simp only [Int.cast_one, Int.cast_zero, c1, fl32_zero, InterpolateFl_0_1_6_0]
  norm_num [intRange, Int.toNat, List.range_succ, cround, Int.floor_eq_iff, Int.ceil_eq_iff]

/-- C4, the claim refuted: the endpoints `(0,1)` and `(6,0)` have `|dx| != |dy|`; in
binary32 the value `Interpolate` accumulates at index 3 is `0.49999994`, so
`DrawLine` writes `(3,0)`, where the claim's `round(1 + 3*(0 - 1)/(6 - 0))` is
`round(1/2) = 1` and gives `(3,1)`. -/
theorem DrawLine_writes_nondiagonal_counterexample :
    |(6 : Int) - 0| ≠ |(0 : Int) - 1| ∧
    DrawLineWritesFl fl32 ⟨0, 1⟩ ⟨6, 0⟩ =
      some [⟨0, 1⟩, ⟨1, 1⟩, ⟨2, 1⟩, ⟨3, 0⟩, ⟨4, 0⟩, ⟨5, 0⟩, ⟨6, 0⟩] ∧
    ((intRange 0 6).map fun (x : Int) =>
      (⟨x, cround (((1 : Int) : ℚ) + ((x : ℚ) - ((0 : Int) : ℚ)) *
        (((0 : Int) : ℚ) - ((1 : Int) : ℚ)) / (((6 : Int) : ℚ) - ((0 : Int) : ℚ)))⟩ : Point)) =
      [⟨0, 1⟩, ⟨1, 1⟩, ⟨2, 1⟩, ⟨3, 1⟩, ⟨4, 0⟩, ⟨5, 0⟩, ⟨6, 0⟩] ∧
    DrawLineWritesFl fl32 ⟨0, 1⟩ ⟨6, 0⟩ ≠ some ((intRange 0 6).map fun (x : Int) =>
      (⟨x, cround (((1 : Int) : ℚ) + ((x : ℚ) - ((0 : Int) : ℚ)) *
        (((0 : Int) : ℚ) - ((1 : Int) : ℚ)) / (((6 : Int) : ℚ) - ((0 : Int) : ℚ)))⟩ : Point)) := by
  have hw := DrawLineWritesFl_0_1_6_0
  have hf : ((intRange 0 6).map fun (x : Int) =>
      (⟨x, cround (((1 : Int) : ℚ) + ((x : ℚ) - ((0 : Int) : ℚ)) *
        (((0 : Int) : ℚ) - ((1 : Int) : ℚ)) / (((6 : Int) : ℚ) - ((0 : Int) : ℚ)))⟩ : Point)) =
      [⟨0, 1⟩, ⟨1, 1⟩, ⟨2, 1⟩, ⟨3, 1⟩, ⟨4, 0⟩, ⟨5, 0⟩, ⟨6, 0⟩] := by
    norm_num [intRange, Int.toNat, List.range_succ, cround, Int.floor_eq_iff, Int.ceil_eq_iff]
  refine ⟨by norm_num, hw, hf, ?_⟩
  rw [hw, hf]
  decide

/-- C4, amended: for endpoints with `|dx| != |dy|`, the pixel writes `DrawLine`
attempts are, if `|dx| > |dy|`, with `a` the endpoint of smaller x and `b` the other,
the pixels `(x, round(ys[x - a.x]))` for `x = a.x, ..., b.x` in that order, where
`ys = Interpolate(a.x, a.y, b.x, b.y)`, and if `|dx| < |dy|`, with `a` the endpoint
of smaller y, the pixels `(round(xs[y - a.y]), y)` for `y = a.y, ..., b.y` in that
order, where `xs = Interpolate(a.y, a.x, b.y, b.x)`, whatever the rounding of the
`float` operations; with arithmetic read as exact, `ys[x - a.x]` is
`a.y + (x - a.x)*(b.y - a.y)/(b.x - a.x)` and `xs[y - a.y]` is
`a.x + (y - a.y)*(b.x - a.x)/(b.y - a.y)`; `round` takes the nearest integer,
halfway cases away from zero; in binary32 the line `(0,0) -> (2,1)` writes `(0,0)`,
`(1,1)`, `(2,1)`. -/
theorem DrawLine_writes_nondiagonal (p0 p1 a b : Point)
    (h : |p1.x - p0.x| ≠ |p1.y - p0.y|)
    (hab : (a = p0 ∧ b = p1) ∨ (a = p1 ∧ b = p0))
    (hx : |p1.x - p0.x| > |p1.y - p0.y| → a.x < b.x)
    (hy : |p1.x - p0.x| < |p1.y - p0.y| → a.y < b.y) :
    (∀ fl : ℚ → ℚ, DrawLineWritesFl fl p0 p1 = some
      (if |p1.x - p0.x| > |p1.y - p0.y| then
        (intRange a.x b.x).map fun (x : Int) =>
          (⟨x, cround ((InterpolateFl fl a.x (fl (a.y : ℚ)) b.x (fl (b.y : ℚ))).getD
            (x - a.x).toNat 0)⟩ : Point)
      else
        (intRange a.y b.y).map fun (y : Int) =>
          (⟨cround ((InterpolateFl fl a.y (fl (a.x : ℚ)) b.y (fl (b.x : ℚ))).getD
            (y - a.y).toNat 0), y⟩ : Point))) ∧
    DrawLineWrites p0 p1 = some
      (if |p1.x - p0.x| > |p1.y - p0.y| then
        (intRange a.x b.x).map fun (x : Int) =>
          (⟨x, cround ((a.y : ℚ) + ((x : ℚ) - (a.x : ℚ)) * ((b.y : ℚ) - (a.y : ℚ)) /
            ((b.x : ℚ) - (a.x : ℚ)))⟩ : Point)
      else
        (intRange a.y b.y).map fun (y : Int) =>
          (⟨cround ((a.x : ℚ) + ((y : ℚ) - (a.y : ℚ)) * ((b.x : ℚ) - (a.x : ℚ)) /
            ((b.y : ℚ) - (a.y : ℚ))), y⟩ : Point)) ∧
    (∀ q : ℚ, |q - (cround q : ℚ)| ≤ 1 / 2 ∧
      (|q - (cround q : ℚ)| = 1 / 2 → |q| < |(cround q : ℚ)|)) ∧
    DrawLineWritesFl fl32 ⟨0, 0⟩ ⟨2, 1⟩ = some [⟨0, 0⟩, ⟨1, 1⟩, ⟨2, 1⟩] := by
  refine ⟨?_, ?_, cround_spec, ?_⟩
  · intro fl
    unfold DrawLineWritesFl
    simp only
    by_cases hgt : |p1.x - p0.x| > |p1.y - p0.y|
    · have hlt := hx hgt
      rw [if_pos hgt, if_pos hgt]
      rcases hab with ⟨rfl, rfl⟩ | ⟨rfl, rfl⟩
      · rw [if_neg (by omega), drawXMajorFl_eq fl _ _ _ _ (le_of_lt hlt)]
      · rw [if_pos (by omega), drawXMajorFl_eq fl _ _ _ _ (le_of_lt hlt)]
    · have hlt := hy (lt_of_le_of_ne (le_of_not_gt hgt) h)
      rw [if_neg hgt, if_neg hgt]
      rcases hab with ⟨rfl, rfl⟩ | ⟨rfl, rfl⟩
      · rw [if_neg (by omega), drawYMajorFl_eq fl _ _ _ _ (le_of_lt hlt)]
      · rw [if_pos (by omega), drawYMajorFl_eq fl _ _ _ _ (le_of_lt hlt)]
  · unfold DrawLineWrites
    simp only
    by_cases hgt : |p1.x - p0.x| > |p1.y - p0.y|
    · have hlt := hx hgt
      rw [if_pos hgt, if_pos hgt]
      rcases hab with ⟨rfl, rfl⟩ | ⟨rfl, rfl⟩
      · rw [if_neg (by omega), drawXMajor_eq _ _ _ _ (le_of_lt hlt)]
      · rw [if_pos (by omega), drawXMajor_eq _ _ _ _ (le_of_lt hlt)]
    · have hlt := hy (lt_of_le_of_ne (le_of_not_gt hgt) h)
      rw [if_neg hgt, if_neg hgt]
      rcases hab with ⟨rfl, rfl⟩ | ⟨rfl, rfl⟩
      · rw [if_neg (by omega), drawYMajor_eq _ _ _ _ (le_of_lt hlt)]
      · rw [if_pos (by omega), drawYMajor_eq _ _ _ _ (le_of_lt hlt)]
  · have c1 : fl32 (1 : ℚ) = 1 := by simpa using fl32_int 1 (by norm_num)
    have h1 : DrawLineWritesFl fl32 ⟨0, 0⟩ ⟨2, 1⟩ = drawXMajorFl fl32 0 0 2 1 := by
      simp [DrawLineWritesFl]
    rw [h1, drawXMajorFl_eq fl32 0 0 2 1 (by decide)]
    simp only [Int.cast_one, Int.cast_zero, c1, fl32_zero, InterpolateFl_0_0_2_1]
    norm_num [intRange, Int.toNat, List.range_succ, cround, Int.floor_eq_iff]

/-- C4 amended, at the line from `(0,0)` to `(2,1)`: with arithmetic read as exact
the writes are `(0,0)`, `(1,1)`, `(2,1)`; the middle one is `(1, round(1/2))`, which
truncation would make `(1,0)`. -/
theorem DrawLine_writes_nondiagonal_witness :
    |(2 : Int) - 0| ≠ |(1 : Int) - 0| ∧
    DrawLineWrites ⟨0, 0⟩ ⟨2, 1⟩ = some [⟨0, 0⟩, ⟨1, 1⟩, ⟨2, 1⟩] ∧
    ctrunc (1 / 2) = 0 :=
  ⟨by norm_num,
    (DrawLine_writes_nondiagonal ⟨0, 0⟩ ⟨2, 1⟩ ⟨0, 0⟩ ⟨2, 1⟩ (by norm_num)
      (Or.inl ⟨rfl, rfl⟩) (fun _ => by decide) (fun _ => by decide)).2.1.trans
      (by norm_num [intRange, Int.toNat, List.range_succ, cround, Int.floor_eq_iff]),
    by norm_num [ctrunc]⟩

/-! ## Axis-aligned lines in the rounding reading -/

/-- With a zero step and a start value that is a float, the loop of `Interpolate`
repeats the start value. -/
theorem interpolateLoopFl_const (fl : ℚ → ℚ) (c : ℚ) (hc : fl c = c) (n : Nat)
    (values : List ℚ) :
    interpolateLoopFl fl 0 n c values = values ++ List.replicate n c := by
  induction n generalizing values with
  | zero => simp [interpolateLoopFl]
  | succ n ih =>
    rw [interpolateLoopFl, add_zero, hc, ih, List.append_assoc, List.singleton_append,
      List.replicate_succ]

/-- Between two equal values that are floats `Interpolate` is constant. -/
theorem InterpolateFl_const (fl : ℚ → ℚ) (h0 : fl 0 = 0) (c : ℚ) (hc : fl c = c)
    (i0 i1 : Int) (h : i0 ≤ i1) :
    InterpolateFl fl i0 c i1 c = List.replicate (i1 + 1 - i0).toNat c := by
  unfold InterpolateFl
  by_cases he : i0 = i1
  · subst he
    simp
  · rw [if_neg he]
    simp only [sub_self, h0, zero_div, interpolateLoopFl_const fl c hc, List.nil_append]

/-- The x-major branch on a horizontal segment whose y is a float. -/
theorem drawXMajorFl_horizontal (fl : ℚ → ℚ) (h0 : fl 0 = 0) (y : Int)
    (hc : fl (y : ℚ) = (y : ℚ)) (x0 x1 : Int) (h : x0 ≤ x1) :
    drawXMajorFl fl x0 y x1 y =
      some ((intRange x0 x1).map fun (x : Int) => (⟨x, y⟩ : Point)) := by
  rw [drawXMajorFl_eq fl x0 y x1 y h, hc, InterpolateFl_const fl h0 _ hc x0 x1 h]
  congr 1
  apply List.map_congr_left
  intro x hx
  rw [mem_intRange] at hx
  have hlt : (x - x0).toNat < (List.replicate (x1 + 1 - x0).toNat (y : ℚ)).length := by
    rw [List.length_replicate]
    omega
  rw [List.getD_eq_getElem _ _ hlt, List.getElem_replicate, cround_intCast]

/-- The y-major branch on a vertical segment whose x is a float. -/
theorem drawYMajorFl_vertical (fl : ℚ → ℚ) (h0 : fl 0 = 0) (x : Int)
    (hc : fl (x : ℚ) = (x : ℚ)) (y0 y1 : Int) (h : y0 ≤ y1) :
    drawYMajorFl fl x y0 x y1 =
      some ((intRange y0 y1).map fun (y : Int) => (⟨x, y⟩ : Point)) := by
  rw [drawYMajorFl_eq fl x y0 x y1 h, hc, InterpolateFl_const fl h0 _ hc y0 y1 h]
  congr 1
  apply List.map_congr_left
  intro y hy
  rw [mem_intRange] at hy
  have hlt : (y - y0).toNat < (List.replicate (y1 + 1 - y0).toNat (x : ℚ)).length := by
    rw [List.length_replicate]
    omega
  rw [List.getD_eq_getElem _ _ hlt, List.getElem_replicate, cround_intCast]

/-- A vertical line whose x is a float writes its lattice points. -/
theorem DrawLineWritesFl_vertical (fl : ℚ → ℚ) (h0 : fl 0 = 0) (x : Int)
    (hc : fl (x : ℚ) = (x : ℚ)) (ya yb : Int) :
    DrawLineWritesFl fl ⟨x, ya⟩ ⟨x, yb⟩ =
      some ((intRange (min ya yb) (max ya yb)).map fun (y' : Int) => (⟨x, y'⟩ : Point)) := by
  unfold DrawLineWritesFl
  simp only [sub_self, abs_zero, gt_iff_lt]
  rw [if_neg (not_lt.mpr (abs_nonneg _))]
  by_cases hswap : yb < ya
  · rw [if_pos hswap, drawYMajorFl_vertical fl h0 x hc yb ya (le_of_lt hswap),
      min_eq_right (le_of_lt hswap), max_eq_left (le_of_lt hswap)]
  · rw [if_neg hswap, drawYMajorFl_vertical fl h0 x hc ya yb (le_of_not_gt hswap),
      min_eq_left (le_of_not_gt hswap), max_eq_right (le_of_not_gt hswap)]

/-- A horizontal line whose y is a float, and whose x is one when the line is a
single point, writes its lattice points. -/
theorem DrawLineWritesFl_horizontal (fl : ℚ → ℚ) (h0 : fl 0 = 0) (y : Int)
    (hc : fl (y : ℚ) = (y : ℚ)) (xa xb : Int) (hxa : fl (xa : ℚ) = (xa : ℚ)) :
    DrawLineWritesFl fl ⟨xa, y⟩ ⟨xb, y⟩ =
      some ((intRange (min xa xb) (max xa xb)).map fun (x' : Int) => (⟨x', y⟩ : Point)) := by
  unfold DrawLineWritesFl
  simp only [sub_self, abs_zero, gt_iff_lt, abs_pos, ne_eq]
  by_cases he : xb - xa = 0
  · have hxx : xb = xa := by omega
    subst hxx
    rw [if_neg (not_not.mpr he), if_neg (lt_irrefl y),
      drawYMajorFl_vertical fl h0 xb hxa y y (le_refl y), min_self, max_self]
    simp [intRange, List.range_succ]
  · rw [if_pos he]
    by_cases hswap : xb < xa
    · rw [if_pos hswap, drawXMajorFl_horizontal fl h0 y hc xb xa (le_of_lt hswap),
        min_eq_right (le_of_lt hswap), max_eq_left (le_of_lt hswap)]
    · rw [if_neg hswap, drawXMajorFl_horizontal fl h0 y hc xa xb (le_of_not_gt hswap),
        min_eq_left (le_of_not_gt hswap), max_eq_right (le_of_not_gt hswap)]

/-- C7, the claim refuted: the `int` 16777217 converts to the `float` 16777216, so in
binary32 the vertical line from `(16777217, 0)` to `(16777217, 2)` writes the pixels
`(16777216, y)`, which are not the lattice points `(16777217, y)` of the segment. -/
theorem DrawLine_axis_aligned_counterexample :
    fl32 (16777217 : ℚ) = 16777216 ∧
    DrawLineWritesFl fl32 ⟨16777217, 0⟩ ⟨16777217, 2⟩ =
      some [⟨16777216, 0⟩, ⟨16777216, 1⟩, ⟨16777216, 2⟩] ∧
    DrawLineWritesFl fl32 ⟨16777217, 0⟩ ⟨16777217, 2⟩ ≠
      some ((intRange (min 0 2) (max 0 2)).map fun (y' : Int) => (⟨16777217, y'⟩ : Point)) := by
  have hbig : fl32 (16777217 : ℚ) = 16777216 := by
    rw [fl32_eval_pos (16777217) (24) (8388608) (by norm_num) (by norm_num) (by norm_num)
      (by norm_num)]
    norm_num
  have hc : fl32 (16777216 : ℚ) = 16777216 := by
    simpa using fl32_int 16777216 (by norm_num)
  have hw : DrawLineWritesFl fl32 ⟨16777217, 0⟩ ⟨16777217, 2⟩ =
      some [⟨16777216, 0⟩, ⟨16777216, 1⟩, ⟨16777216, 2⟩] := by
    have h1 : DrawLineWritesFl fl32 ⟨16777217, 0⟩ ⟨16777217, 2⟩ =
        drawYMajorFl fl32 16777217 0 16777217 2 := by
      simp [DrawLineWritesFl]
    rw [h1, drawYMajorFl_eq fl32 16777217 0 16777217 2 (by decide)]
    simp only [Int.cast_ofNat, hbig]
    rw [InterpolateFl_const fl32 fl32_zero 16777216 hc 0 2 (by decide)]
    norm_num [intRange, Int.toNat, List.range_succ, List.replicate, cround, Int.floor_eq_iff]
  refine ⟨hbig, hw, ?_⟩
  rw [hw]
  norm_num [intRange, Int.toNat, List.range_succ]

/-- C7, amended: in binary32, for a segment whose coordinates have magnitude at most
`2^24` (they convert to `float` exactly), a horizontal line from `(xa, y)` to
`(xb, y)` writes the pixels `(x, y)` for every integer x between `xa` and `xb`
inclusive, and a vertical line from `(x, ya)` to `(x, yb)` writes the pixels
`(x, y')` for every integer y' between `ya` and `yb` inclusive, each once and
nothing else; so do the lines `(0,0)->(10,0)` and `(0,0)->(0,10)`; with arithmetic
read as exact this holds of every axis-aligned segment. -/
theorem DrawLine_axis_aligned (xa xb ya yb x y : Int)
    (hxa : |xa| ≤ 2 ^ 24) (hx : |x| ≤ 2 ^ 24) (hy : |y| ≤ 2 ^ 24) :
    DrawLineWritesFl fl32 ⟨xa, y⟩ ⟨xb, y⟩ =
      some ((intRange (min xa xb) (max xa xb)).map fun (x' : Int) => (⟨x', y⟩ : Point)) ∧
    DrawLineWritesFl fl32 ⟨x, ya⟩ ⟨x, yb⟩ =
      some ((intRange (min ya yb) (max ya yb)).map fun (y' : Int) => (⟨x, y'⟩ : Point)) ∧
    DrawLineWritesFl fl32 ⟨0, 0⟩ ⟨10, 0⟩ =
      some [⟨0, 0⟩, ⟨1, 0⟩, ⟨2, 0⟩, ⟨3, 0⟩, ⟨4, 0⟩, ⟨5, 0⟩, ⟨6, 0⟩, ⟨7, 0⟩, ⟨8, 0⟩, ⟨9, 0⟩,
        ⟨10, 0⟩] ∧
    DrawLineWritesFl fl32 ⟨0, 0⟩ ⟨0, 10⟩ =
      some [⟨0, 0⟩, ⟨0, 1⟩, ⟨0, 2⟩, ⟨0, 3⟩, ⟨0, 4⟩, ⟨0, 5⟩, ⟨0, 6⟩, ⟨0, 7⟩, ⟨0, 8⟩, ⟨0, 9⟩,
        ⟨0, 10⟩] ∧
    (∀ xa xb y : Int, DrawLineWrites ⟨xa, y⟩ ⟨xb, y⟩ =
      some ((intRange (min xa xb) (max xa xb)).map fun (x' : Int) => (⟨x', y⟩ : Point))) ∧
    (∀ x ya yb : Int, DrawLineWrites ⟨x, ya⟩ ⟨x, yb⟩ =
      some ((intRange (min ya yb) (max ya yb)).map fun (y' : Int) => (⟨x, y'⟩ : Point))) := by
  have z : fl32 ((0 : Int) : ℚ) = ((0 : Int) : ℚ) := fl32_int 0 (by norm_num)
  refine ⟨DrawLineWritesFl_horizontal fl32 fl32_zero y (fl32_int y hy) xa xb (fl32_int xa hxa),
    DrawLineWritesFl_vertical fl32 fl32_zero x (fl32_int x hx) ya yb, ?_, ?_, ?_, ?_⟩
  · rw [DrawLineWritesFl_horizontal fl32 fl32_zero 0 z 0 10 z]
    simp [intRange, Int.toNat, List.range_succ]
  · rw [DrawLineWritesFl_vertical fl32 fl32_zero 0 z 0 10]
    simp [intRange, Int.toNat, List.range_succ]
  · intro xa xb y
    have := DrawLineWritesFl_horizontal id rfl y rfl xa xb rfl
    rwa [DrawLineWritesFl_id] at this
  · intro x ya yb
    have := DrawLineWritesFl_vertical id rfl x rfl ya yb
    rwa [DrawLineWritesFl_id] at this

/-- C7 amended, at the lines from `(0,0)` to `(10,0)` and from `(0,0)` to `(0,10)`. -/
theorem DrawLine_axis_aligned_witness :
    (|(0 : Int)| ≤ 2 ^ 24) ∧
    DrawLineWritesFl fl32 ⟨0, 0⟩ ⟨10, 0⟩ =
      some ((intRange (min 0 10) (max 0 10)).map fun (x' : Int) => (⟨x', 0⟩ : Point)) ∧
    DrawLineWritesFl fl32 ⟨0, 0⟩ ⟨0, 10⟩ =
      some ((intRange (min 0 10) (max 0 10)).map fun (y' : Int) => (⟨0, y'⟩ : Point)) :=
  ⟨by norm_num,
    (DrawLine_axis_aligned 0 10 0 10 0 0 (by norm_num) (by norm_num) (by norm_num)).1,
    (DrawLine_axis_aligned 0 10 0 10 0 0 (by norm_num) (by norm_num) (by norm_num)).2.1⟩

/-! ## Projection in the rounding reading -/

/-- C8, the claim refuted: for the vertex `(-4, -0.5, 3)`, of depth `3 + 7 = 10`, the
binary32 operations of `ProjectVertex` and `ViewportToCanvas` give `(90, 209)`,
where the claim's `(truncate((px + 1)*200), truncate((1 - py)*200))` with
`px = -5.5/10` and `py = -0.5/10` is `(90, 210)`. -/
theorem ProjectVertex_spec_counterexample :
    (3 : ℚ) + 7 ≠ 0 ∧
    ProjectVertexFl fl32 ⟨-4, -1 / 2, 3⟩ = ⟨90, 209⟩ ∧
    (⟨ctrunc ((((-4 : ℚ) - 3 / 2) * 1 / (3 + 7) + 1) * 200),
      ctrunc ((1 - ((-1 / 2 : ℚ) + 0) * 1 / (3 + 7)) * 200)⟩ : Point) = ⟨90, 210⟩ ∧
    ProjectVertexFl fl32 ⟨-4, -1 / 2, 3⟩ ≠
      ⟨ctrunc ((((-4 : ℚ) - 3 / 2) * 1 / (3 + 7) + 1) * 200),
        ctrunc ((1 - ((-1 / 2 : ℚ) + 0) * 1 / (3 + 7)) * 200)⟩ := by
  have a0 : fl32 (-(11 / 2) : ℚ) = -(11 / 2) := by
    rw [fl32_eval_neg (-(11 / 2)) (2) (-11534336) (by norm_num) (by norm_num) (by norm_num)
      (by norm_num)]
    norm_num
  have a1 : fl32 (-(1 / 2) : ℚ) = -(1 / 2) := by
    rw [fl32_eval_neg (-(1 / 2)) (-1) (-8388608) (by norm_num) (by norm_num) (by norm_num)
      (by norm_num)]
    norm_num
  have a2 : fl32 (10 : ℚ) = 10 := by
    rw [fl32_eval_pos (10) (3) (10485760) (by norm_num) (by norm_num) (by norm_num)
      (by norm_num)]
    norm_num
  have a3 : fl32 (-(11 / 20) : ℚ) = -(9227469 / 16777216) := by
    rw [fl32_eval_neg (-(11 / 20)) (-1) (-9227469) (by norm_num) (by norm_num) (by norm_num)
      (by norm_num)]
    norm_num
  have a4 : fl32 (-(1 / 20) : ℚ) = -(13421773 / 268435456) := by
    rw [fl32_eval_neg (-(1 / 20)) (-5) (-13421773) (by norm_num) (by norm_num) (by norm_num)
      (by norm_num)]
    norm_num
  have a5 : fl32 (1 : ℚ) = 1 := by
    rw [fl32_eval_pos (1) (0) (8388608) (by norm_num) (by norm_num) (by norm_num)
      (by norm_num)]
    norm_num
  have a6 : fl32 (7549747 / 16777216 : ℚ) = 7549747 / 16777216 := by
    rw [fl32_eval_pos (7549747 / 16777216) (-2) (15099494) (by norm_num) (by norm_num) (by norm_num)
      (by norm_num)]
    norm_num
  have a7 : fl32 (200 : ℚ) = 200 := by
    rw [fl32_eval_pos (200) (7) (13107200) (by norm_num) (by norm_num) (by norm_num)
      (by norm_num)]
    norm_num
  have a8 : fl32 (188743675 / 2097152 : ℚ) = 90 := by
    rw [fl32_eval_pos (188743675 / 2097152) (6) (11796480) (by norm_num) (by norm_num) (by norm_num)
      (by norm_num)]
    norm_num
  have a9 : fl32 (281857229 / 268435456 : ℚ) = 4404019 / 4194304 := by
    rw [fl32_eval_pos (281857229 / 268435456) (0) (8808038) (by norm_num) (by norm_num) (by norm_num)
      (by norm_num)]
    norm_num
  have a10 : fl32 (110100475 / 524288 : ℚ) = 13762559 / 65536 := by
    rw [fl32_eval_pos (110100475 / 524288) (7) (13762559) (by norm_num) (by norm_num) (by norm_num)
      (by norm_num)]
    norm_num
  have hp : ProjectVertexFl fl32 ⟨-4, -1 / 2, 3⟩ = ⟨90, 209⟩ := by
    simp only [ProjectVertexFl, ViewportToCanvasFl, T, d, Vw, viewportHeight, Cw, Ch]
    norm_num [a0, a1, a2, a3, a4, a5, a6, a7, a8, a9, a10, ctrunc, Int.floor_eq_iff, Int.ceil_eq_iff]
  have hf : (⟨ctrunc ((((-4 : ℚ) - 3 / 2) * 1 / (3 + 7) + 1) * 200),
      ctrunc ((1 - ((-1 / 2 : ℚ) + 0) * 1 / (3 + 7)) * 200)⟩ : Point) = ⟨90, 210⟩ := by
    norm_num [ctrunc, Int.floor_eq_iff, Int.ceil_eq_iff]
  refine ⟨by norm_num, hp, hf, ?_⟩
  rw [hp, hf]
  decide

/-- C8, amended: for a vertex `v` with `v.z + 7 != 0`, `ProjectVertex(v)` is
`ViewportToCanvas(px, py)` with `px = (v.x - 1.5)*1/(v.z + 7)` and
`py = (v.y + 0)*1/(v.z + 7)`, each operation rounded as `float` operations are, and
the result is not clamped to the canvas; with arithmetic read as exact it is the
point `(truncate((px + 1)*200), truncate((1 - py)*200))`; the vertex `(0,0,7)` goes
to the camera-space point `(-1.5, 0, 14)`, has `px = -1.5/14` and projects to
`(178, 200)`, in binary32 as in exact arithmetic, and `(100, 0, -6)` projects to
`(19900, 200)`, outside the canvas. -/
theorem ProjectVertex_spec (v : Vertex) (_hz : v.z + 7 ≠ 0) :
    (∀ fl : ℚ → ℚ, ProjectVertexFl fl v =
      ViewportToCanvasFl fl (fl (fl (fl (v.x - 3 / 2) * 1) / fl (v.z + 7)))
        (fl (fl (fl (v.y + 0) * 1) / fl (v.z + 7)))) ∧
    ProjectVertex v =
      ViewportToCanvas ((v.x - 3 / 2) * 1 / (v.z + 7)) ((v.y + 0) * 1 / (v.z + 7)) ∧
    ProjectVertex v =
      ⟨ctrunc (((v.x - 3 / 2) * 1 / (v.z + 7) + 1) * 200),
        ctrunc ((1 - (v.y + 0) * 1 / (v.z + 7)) * 200)⟩ ∧
    ((⟨0 + T.x, 0 + T.y, 7 + T.z⟩ : Vertex) = ⟨-3 / 2, 0, 14⟩ ∧
      ctrunc (((-3 / 2 : ℚ) * 1 / 14 + 1) * 200) = 178 ∧
      ProjectVertex ⟨0, 0, 7⟩ = ⟨178, 200⟩ ∧
      ProjectVertexFl fl32 ⟨0, 0, 7⟩ = ⟨178, 200⟩) ∧
    (ProjectVertex ⟨100, 0, -6⟩ = ⟨19900, 200⟩ ∧
      ProjectVertexFl fl32 ⟨100, 0, -6⟩ = ⟨19900, 200⟩) := by
  have hgen : ∀ w : Vertex, ProjectVertex w =
      ⟨ctrunc (((w.x - 3 / 2) * 1 / (w.z + 7) + 1) * 200),
        ctrunc ((1 - (w.y + 0) * 1 / (w.z + 7)) * 200)⟩ := by
    intro w
    simp only [ProjectVertex, ViewportToCanvas, T, d, Vw, viewportHeight, Cw, Ch]
    norm_num
    simp only [sub_eq_add_neg]
  refine ⟨?_, ?_, hgen v, ⟨?_, ?_, ?_, ?_⟩, ?_, ?_⟩
  · intro fl
    simp only [ProjectVertexFl, T, d, sub_eq_add_neg]
    norm_num
  · rw [hgen v]
    simp only [ViewportToCanvas, Vw, viewportHeight, Cw, Ch]
    norm_num
  · simp only [T]
    norm_num
  · norm_num [ctrunc, Int.floor_eq_iff]
  · rw [hgen]
    norm_num [ctrunc, Int.floor_eq_iff]
  ·
    have b0 : fl32 (-(3 / 2) : ℚ) = -(3 / 2) := by
      rw [fl32_eval_neg (-(3 / 2)) (0) (-12582912) (by norm_num) (by norm_num) (by norm_num)
        (by norm_num)]
      norm_num
    have b1 : fl32 (0 : ℚ) = 0 := fl32_zero
    have b2 : fl32 (14 : ℚ) = 14 := by
      rw [fl32_eval_pos (14) (3) (14680064) (by norm_num) (by norm_num) (by norm_num)
        (by norm_num)]
      norm_num
    have b3 : fl32 (-(3 / 28) : ℚ) = -(14380471 / 134217728) := by
      rw [fl32_eval_neg (-(3 / 28)) (-4) (-14380471) (by norm_num) (by norm_num) (by norm_num)
        (by norm_num)]
      norm_num
    have b4 : fl32 (1 : ℚ) = 1 := by
      rw [fl32_eval_pos (1) (0) (8388608) (by norm_num) (by norm_num) (by norm_num)
        (by norm_num)]
      norm_num
    have b5 : fl32 (119837257 / 134217728 : ℚ) = 14979657 / 16777216 := by
      rw [fl32_eval_pos (119837257 / 134217728) (-1) (14979657) (by norm_num) (by norm_num) (by norm_num)
        (by norm_num)]
      norm_num
    have b6 : fl32 (200 : ℚ) = 200 := by
      rw [fl32_eval_pos (200) (7) (13107200) (by norm_num) (by norm_num) (by norm_num)
        (by norm_num)]
      norm_num
    have b7 : fl32 (374491425 / 2097152 : ℚ) = 11702857 / 65536 := by
      rw [fl32_eval_pos (374491425 / 2097152) (7) (11702857) (by norm_num) (by norm_num) (by norm_num)
        (by norm_num)]
      norm_num
    simp only [ProjectVertexFl, ViewportToCanvasFl, T, d, Vw, viewportHeight, Cw, Ch]
    norm_num [b0, b1, b2, b3, b4, b5, b6, b7, ctrunc, Int.floor_eq_iff, Int.ceil_eq_iff]
  · rw [hgen]
    norm_num [ctrunc, Int.floor_eq_iff]
  ·
    have c0 : fl32 (197 / 2 : ℚ) = 197 / 2 := by
      rw [fl32_eval_pos (197 / 2) (6) (12910592) (by norm_num) (by norm_num) (by norm_num)
        (by norm_num)]
      norm_num
    have c1 : fl32 (0 : ℚ) = 0 := fl32_zero
    have c2 : fl32 (1 : ℚ) = 1 := by
      rw [fl32_eval_pos (1) (0) (8388608) (by norm_num) (by norm_num) (by norm_num)
        (by norm_num)]
      norm_num
    have c3 : fl32 (199 / 2 : ℚ) = 199 / 2 := by
      rw [fl32_eval_pos (199 / 2) (6) (13041664) (by norm_num) (by norm_num) (by norm_num)
        (by norm_num)]
      norm_num
    have c4 : fl32 (200 : ℚ) = 200 := by
      rw [fl32_eval_pos (200) (7) (13107200) (by norm_num) (by norm_num) (by norm_num)
        (by norm_num)]
      norm_num
    have c5 : fl32 (19900 : ℚ) = 19900 := by
      rw [fl32_eval_pos (19900) (14) (10188800) (by norm_num) (by norm_num) (by norm_num)
        (by norm_num)]
      norm_num
    simp only [ProjectVertexFl, ViewportToCanvasFl, T, d, Vw, viewportHeight, Cw, Ch]
    norm_num [c0, c1, c2, c3, c4, c5, ctrunc, Int.floor_eq_iff, Int.ceil_eq_iff]

/-- C8 amended, at the vertex `(0,0,7)`. -/
theorem ProjectVertex_spec_witness :
    (7 : ℚ) + 7 ≠ 0 ∧ ProjectVertex ⟨0, 0, 7⟩ = ⟨178, 200⟩ ∧
    ProjectVertexFl fl32 ⟨0, 0, 7⟩ = ⟨178, 200⟩ :=
  ⟨by norm_num, (ProjectVertex_spec ⟨0, 0, 7⟩ (by norm_num)).2.2.2.1.2.2.1,
    (ProjectVertex_spec ⟨0, 0, 7⟩ (by norm_num)).2.2.2.1.2.2.2⟩

/-- The writes of the specification's rasteriser from `(0,1)` to `(6,0)`. -/
theorem specDrawLineWrites_0_1_6_0 :
    specDrawLineWrites ⟨0, 1⟩ ⟨6, 0⟩ =
      [⟨0, 1⟩, ⟨1, 1⟩, ⟨2, 1⟩, ⟨3, 1⟩, ⟨4, 0⟩, ⟨5, 0⟩, ⟨6, 0⟩] := by
  have h1 : specDrawLineWrites ⟨0, 1⟩ ⟨6, 0⟩ = specXMajor ⟨0, 1⟩ ⟨6, 0⟩ := by
    simp [specDrawLineWrites]
  rw [h1]
  simp only [specXMajor, specInterpolate]
  norm_num [intRange, Int.toNat, List.range_succ, cround, Int.floor_eq_iff, Int.ceil_eq_iff]

/-- C15, the claim refuted: drawing the line from `(0,1)` to `(6,0)` in red on the
white canvas, `DrawLine` in binary32 colours the cell of `(3,0)` and leaves the cell
of `(3,1)` white, while the specification's rasteriser, whose value at step 3 is
`1 + 3*(0 - 1)/(6 - 0) = 1/2`, colours `(3,1)` and leaves `(3,0)` white: the two
frame buffers differ although `|dx| != |dy|`. -/
theorem DrawLine_refines_spec_counterexample :
    DrawLineFl fl32 ⟨0, 1⟩ ⟨6, 0⟩ red Canvas =
      some (putPixels red [⟨0, 1⟩, ⟨1, 1⟩, ⟨2, 1⟩, ⟨3, 0⟩, ⟨4, 0⟩, ⟨5, 0⟩, ⟨6, 0⟩] Canvas) ∧
    putPixels red [⟨0, 1⟩, ⟨1, 1⟩, ⟨2, 1⟩, ⟨3, 0⟩, ⟨4, 0⟩, ⟨5, 0⟩, ⟨6, 0⟩] Canvas
      ⟨3, by decide⟩ = red ∧
    putPixels red [⟨0, 1⟩, ⟨1, 1⟩, ⟨2, 1⟩, ⟨3, 0⟩, ⟨4, 0⟩, ⟨5, 0⟩, ⟨6, 0⟩] Canvas
      ⟨403, by decide⟩ = white ∧
    specDrawLine ⟨0, 1⟩ ⟨6, 0⟩ red Canvas ⟨3, by decide⟩ = white ∧
    specDrawLine ⟨0, 1⟩ ⟨6, 0⟩ red Canvas ⟨403, by decide⟩ = red ∧
    DrawLineFl fl32 ⟨0, 1⟩ ⟨6, 0⟩ red Canvas ≠ some (specDrawLine ⟨0, 1⟩ ⟨6, 0⟩ red Canvas) := by
  have hcode : DrawLineFl fl32 ⟨0, 1⟩ ⟨6, 0⟩ red Canvas =
      some (putPixels red [⟨0, 1⟩, ⟨1, 1⟩, ⟨2, 1⟩, ⟨3, 0⟩, ⟨4, 0⟩, ⟨5, 0⟩, ⟨6, 0⟩] Canvas) := by
    rw [DrawLineFl, DrawLineWritesFl_0_1_6_0, Option.map_some']
  have h3 : putPixels red [⟨0, 1⟩, ⟨1, 1⟩, ⟨2, 1⟩, ⟨3, 0⟩, ⟨4, 0⟩, ⟨5, 0⟩, ⟨6, 0⟩] Canvas
      ⟨3, by decide⟩ = red := by
    apply putPixels_hit
    exact ⟨⟨3, 0⟩, by simp, by simp [hits]⟩
  have h403 : putPixels red [⟨0, 1⟩, ⟨1, 1⟩, ⟨2, 1⟩, ⟨3, 0⟩, ⟨4, 0⟩, ⟨5, 0⟩, ⟨6, 0⟩] Canvas
      ⟨403, by decide⟩ = white := by
    rw [putPixels_miss]
    · rfl
    · simp [hits]
  have s3 : specDrawLine ⟨0, 1⟩ ⟨6, 0⟩ red Canvas ⟨3, by decide⟩ = white := by
    rw [specDrawLine, specDrawLineWrites_0_1_6_0, putPixels_miss]
    · rfl
    · simp [hits]
  have s403 : specDrawLine ⟨0, 1⟩ ⟨6, 0⟩ red Canvas ⟨403, by decide⟩ = red := by
    rw [specDrawLine, specDrawLineWrites_0_1_6_0]
    apply putPixels_hit
    exact ⟨⟨3, 1⟩, by simp, by simp [hits]⟩
  refine ⟨hcode, h3, h403, s3, s403, ?_⟩
  rw [hcode]
  intro hc
  have h := congrFun (Option.some.inj hc) ⟨3, by decide⟩
  rw [h3, s3] at h
  exact absurd h (by decide)

end Razterizacion
